import Mathlib

/-!
Verification of the text-recovery pipeline of `extrair_docling.py`
(`UniversalPDFProcessor`).

Texts are modelled as `List Char` (Python `str` as a sequence of Unicode
scalar values).  Python floats are modelled as rationals (`ℚ`).  External
collaborators (PyMuPDF/pdfplumber extractors, chardet, unidecode, the
Docling converter, byte-level re-encoding) are modelled as parameters.
Python regular-expression substitutions are implemented as dedicated
structural scanners mirroring the leftmost, non-overlapping, greedy
semantics of `re.sub`/`re.findall` for the concrete patterns in the source.

Character classes (`\w`, `\s`, `str.isalnum`, `str.lower`) are modelled on
the Basic Latin and Latin-1 repertoire, which is the repertoire the
program's own patterns target.
-/

namespace Extrair

/-- Python whitespace (`str.isspace`, regex `\s`), as an explicit set. -/
def isPySpace (c : Char) : Bool :=
  [' ', '\t', '\n', '\r', '\x0b', '\x0c',
   '\x1c', '\x1d', '\x1e', '\x1f', '\x85', '\xa0',
   '\u1680', '\u2000', '\u2001', '\u2002', '\u2003', '\u2004', '\u2005',
   '\u2006', '\u2007', '\u2008', '\u2009', '\u200a',
   '\u2028', '\u2029', '\u202f', '\u205f', '\u3000'].contains c

/-- Python `str.isalpha`, modelled on ASCII plus Latin-1 letters. -/
def pyIsAlpha (c : Char) : Bool :=
  ('a' ≤ c && c ≤ 'z') || ('A' ≤ c && c ≤ 'Z') ||
  ('À' ≤ c && c ≤ 'ÿ' && c ≠ '×' && c ≠ '÷') ||
  [('ª' : Char), 'µ', 'º'].contains c

/-- ASCII decimal digit (regex `\d`). -/
def pyIsDigit (c : Char) : Bool := '0' ≤ c && c ≤ '9'

/-- Python `str.isalnum`, modelled on ASCII plus Latin-1. -/
def pyIsAlnum (c : Char) : Bool :=
  pyIsAlpha c || pyIsDigit c ||
  [('¹' : Char), '²', '³', '¼', '½', '¾'].contains c

/-- Regex word character `\w` (alphanumeric or underscore). -/
def isW (c : Char) : Bool := pyIsAlnum c || c == '_'

/-- Python `str.lower`, character-wise, on ASCII and Latin-1. -/
def pyLower (c : Char) : Char :=
  if 'A' ≤ c && c ≤ 'Z' then Char.ofNat (c.toNat + 32)
  else if 'À' ≤ c && c ≤ 'Þ' && c ≠ '×' then Char.ofNat (c.toNat + 32)
  else if c = 'Ÿ' then 'ÿ'
  else c

/-- Python `str.count pat` for a non-empty pattern: number of
non-overlapping occurrences, scanning left to right.  The `skip` counter
carries the characters still to be jumped over after a match. -/
def countOccsGo (pat : List Char) : Nat → List Char → Nat
  | skip + 1, _ :: rest => countOccsGo pat skip rest
  | _, [] => 0
  | 0, c :: rest =>
    if pat.isPrefixOf (c :: rest) then 1 + countOccsGo pat (pat.length - 1) rest
    else countOccsGo pat 0 rest

/-- Python `str.count` (for the empty pattern Python returns `len + 1`). -/
def countOccs (pat s : List Char) : Nat :=
  if pat.isEmpty then s.length + 1 else countOccsGo pat 0 s

/-- Python `str.replace pat rep` for a non-empty pattern: replace all
non-overlapping occurrences, scanning left to right. -/
def pyReplaceGo (pat rep : List Char) : Nat → List Char → List Char
  | skip + 1, _ :: rest => pyReplaceGo pat rep skip rest
  | _, [] => []
  | 0, c :: rest =>
    if pat.isPrefixOf (c :: rest) then rep ++ pyReplaceGo pat rep (pat.length - 1) rest
    else c :: pyReplaceGo pat rep 0 rest

/-- Python `str.replace` (identity for the empty pattern; the program's
correction maps never contain an empty key). -/
def pyReplace (pat rep s : List Char) : List Char :=
  if pat.isEmpty then s else pyReplaceGo pat rep 0 s

/-- The five Portuguese indicator substrings of `detect_language`. -/
def ptWords : List (List Char) := [['o'], ['a'], ['d', 'e'], ['q', 'u', 'e'], ['e']]

/-- The five English indicator substrings of `detect_language`. -/
def enWords : List (List Char) :=
  [['t', 'h', 'e'], ['a', 'n', 'd'], ['o', 'f'], ['t', 'o'], ['i', 'n']]

/-- Portuguese indicator count of `detect_language`: total substring
occurrences of the five Portuguese words in the lowercased text. -/
def ptScore (t : List Char) : Nat :=
  (ptWords.map (fun w => countOccs w (t.map pyLower))).sum

/-- English indicator count of `detect_language`. -/
def enScore (t : List Char) : Nat :=
  (enWords.map (fun w => countOccs w (t.map pyLower))).sum

/-- Model of `UniversalPDFProcessor.detect_language`. -/
def detect_language (t : List Char) : String :=
  if ptScore t > enScore t then "portuguese"
  else if enScore t > ptScore t then "english"
  else "unknown"

/-- The punctuation allowlist of `_evaluate_text_quality`
(`',.;:!?()[]{}@#$%&*_+-=/'`). -/
def qualityPunct : List Char :=
  [',', '.', ';', ':', '!', '?', '(', ')', '[', ']', '\x7b', '\x7d',
   '@', '#', '$', '%', '&', '*', '_', '+', '-', '=', '/']

/-- A character counted as valid by `_evaluate_text_quality`
(`c.isalnum() or c.isspace() or c in ',.;:!?()[]{}@#$%&*_+-=/'`). -/
def isQualityValid (c : Char) : Bool :=
  pyIsAlnum c || isPySpace c || qualityPunct.contains c

/-- The `valid_ratio` of `_evaluate_text_quality`: fraction of valid characters. -/
def validFrac (t : List Char) : ℚ :=
  ((t.countP isQualityValid : ℚ)) / (t.length : ℚ)

/-- The `space_ratio` of `_evaluate_text_quality`: fraction of `' '` characters. -/
def spaceFrac (t : List Char) : ℚ :=
  ((t.count ' ' : ℚ)) / (t.length : ℚ)

/-- The `problem_ratio` of `_evaluate_text_quality`.  The source sums
`text.count(char)` over the marker list `['�', '\x00', '�']`; its
first and third entries are the same character U+FFFD, so U+FFFD is
counted twice and NUL once. -/
def problemFrac (t : List Char) : ℚ :=
  ((t.count '�' + t.count '\x00' + t.count '�' : ℚ)) / (t.length : ℚ)

/-- Whether the space-bonus condition `0.1 < space_ratio < 0.3` holds. -/
def spaceInRange (t : List Char) : Prop :=
  (0.1 : ℚ) < spaceFrac t ∧ spaceFrac t < (0.3 : ℚ)

instance (t : List Char) : Decidable (spaceInRange t) := by
  unfold spaceInRange; infer_instance

/-- Model of `UniversalPDFProcessor._evaluate_text_quality`, with floats modelled
as rationals. -/
def evaluate_text_quality (t : List Char) : ℚ :=
  if t.length < 100 then 0
  else
    validFrac t * (0.6 : ℚ)
      + (if spaceInRange t then (0.1 : ℚ) else 0) * (0.2 : ℚ)
      + (1 - min (problemFrac t * 10) 1) * (0.2 : ℚ)

/-- The quality score as claim C3 words it: `problem_ratio` read as the
plain fraction of characters that are corruption markers (U+FFFD or NUL),
each character counted once. -/
def claimQualityScore (t : List Char) : ℚ :=
  if t.length < 100 then 0
  else
    (0.6 : ℚ) * validFrac t
      + (0.2 : ℚ) * (if spaceInRange t then (0.1 : ℚ) else 0)
      + (0.2 : ℚ) *
        (1 - min (10 * (((t.countP fun c => c == '�' || c == '\x00') : ℚ) / (t.length : ℚ))) 1)

/-! ### The regex substitutions of `auto_correct` -/

/-- One scanning step of `re.sub(r'\s+', ' ', ...)`: every maximal run of
whitespace becomes a single `' '`.  The flag records whether the scanner
is inside a run whose `' '` has already been emitted. -/
def collapseWsGo : Bool → List Char → List Char
  | _, [] => []
  | inRun, c :: rest =>
    if isPySpace c then
      if inRun then collapseWsGo true rest
      else ' ' :: collapseWsGo true rest
    else c :: collapseWsGo false rest

/-- Model of `re.sub(r'\s+', ' ', text)`. -/
def collapseWs (t : List Char) : List Char := collapseWsGo false t

/-- Match attempt for `re.sub(r'(\w)\s*-\s*(\w)', r'\1-\2', ...)` at a
position whose `(\w)` has just been read: look in the remaining input for
`\s*-\s*(\w)`.  Returns the second word character and how many characters
of the remaining input the rest of the match consumes. -/
def hyphenSplit (l : List Char) : Option (Char × Nat) :=
  let w1 := l.takeWhile isPySpace
  match l.drop w1.length with
  | '-' :: t =>
    let w2 := t.takeWhile isPySpace
    match t.drop w2.length with
    | d :: _ => if isW d then some (d, w1.length + 1 + w2.length + 1) else none
    | [] => none
  | _ => none

/-- Scanner for `re.sub(r'(\w)\s*-\s*(\w)', r'\1-\2', ...)`: leftmost,
non-overlapping; after a match the scan resumes after the consumed `(\w)`.
The `skip` counter jumps over the consumed part of a match. -/
def rehyphenGo : Nat → List Char → List Char
  | skip + 1, _ :: rest => rehyphenGo skip rest
  | _, [] => []
  | 0, c :: rest =>
    if isW c then
      match hyphenSplit rest with
      | some (d, n) => c :: '-' :: d :: rehyphenGo n rest
      | none => c :: rehyphenGo 0 rest
    else c :: rehyphenGo 0 rest

/-- Model of `re.sub(r'(\w)\s*-\s*(\w)', r'\1-\2', text)`. -/
def rehyphen (t : List Char) : List Char := rehyphenGo 0 t

/-- Match attempt for the de-hyphenation pattern
`(\b\w+)-\s*\n\s*(\w+\b)` at a position where a fresh word starts with
`c`.  Returns whether the pattern matched, the characters to emit
(`\1\2` on a match, otherwise the word run `\1`), and how many characters
of `rest` were consumed. -/
def dehyphScan (c : Char) (rest : List Char) : Bool × List Char × Nat :=
  let run := c :: rest.takeWhile isW
  let k₁ := (rest.takeWhile isW).length
  match rest.drop k₁ with
  | '-' :: rest2 =>
    let ws := rest2.takeWhile isPySpace
    if ws.contains '\n' then
      match rest2.drop ws.length with
      | d :: _ =>
        if isW d then
          let run2 := (rest2.drop ws.length).takeWhile isW
          (true, run ++ run2, k₁ + 1 + ws.length + run2.length)
        else (false, run, k₁)
      | [] => (false, run, k₁)
    else (false, run, k₁)
  | _ => (false, run, k₁)

/-- Scanner for `re.sub(r'(\b\w+)-\s*\n\s*(\w+\b)', r'\1\2', ...)`.
`prevW` tracks whether the previous character was a word character (for
the `\b` word boundary); `skip` jumps over already-consumed characters,
all of which end in a word character, so the flag resumes as `true`. -/
def dehyphGo : Nat → Bool → List Char → List Char
  | _, _, [] => []
  | skip + 1, pw, _ :: rest => dehyphGo skip pw rest
  | 0, prevW, c :: rest =>
    if isW c && !prevW then
      match dehyphScan c rest with
      | (_, out, n) => out ++ dehyphGo n true rest
    else c :: dehyphGo 0 (isW c) rest

/-- Model of `re.sub(r'(\b\w+)-\s*\n\s*(\w+\b)', r'\1\2', text)`. -/
def dehyph (t : List Char) : List Char := dehyphGo 0 false t

/-- Character class `[a-zà-ÿ]` of the Portuguese sentence-split rule. -/
def isPtLower (c : Char) : Bool := ('a' ≤ c && c ≤ 'z') || ('à' ≤ c && c ≤ 'ÿ')

/-- Character class `[A-ZÀ-Ÿ]` of the Portuguese sentence-split rule
(`Ÿ` is U+0178, so the second interval spans U+00C0–U+0178). -/
def isPtUpper (c : Char) : Bool := ('A' ≤ c && c ≤ 'Z') || ('À' ≤ c && c ≤ 'Ÿ')

/-- Model of `re.sub(r'([a-zà-ÿ])\.\s([A-ZÀ-Ÿ])', r'\1. \n\n\2', text)`. -/
def ptRule1 : List Char → List Char
  | c :: '.' :: s :: d :: rest =>
    if isPtLower c && isPySpace s && isPtUpper d then
      c :: '.' :: ' ' :: '\n' :: '\n' :: d :: ptRule1 rest
    else c :: ptRule1 ('.' :: s :: d :: rest)
  | c :: rest => c :: ptRule1 rest
  | [] => []

/-- Scanner for `re.sub(r'Art\.\s*(\d+)[º°]?', r'**Art. \1**', ...)`. -/
def ptRule2Go : Nat → List Char → List Char
  | skip + 1, _ :: rest => ptRule2Go skip rest
  | _, [] => []
  | 0, c :: rest =>
    if ['A', 'r', 't', '.'].isPrefixOf (c :: rest) then
      let after := rest.drop 3
      let ws := after.takeWhile isPySpace
      let after2 := after.drop ws.length
      let digits := after2.takeWhile pyIsDigit
      if digits.isEmpty then c :: ptRule2Go 0 rest
      else
        let after3 := after2.drop digits.length
        let ord : Nat := if after3.head? = some 'º' ∨ after3.head? = some '°' then 1 else 0
        ['*', '*', 'A', 'r', 't', '.', ' '] ++ digits ++ ['*', '*'] ++
          ptRule2Go (3 + ws.length + digits.length + ord) rest
    else c :: ptRule2Go 0 rest

/-- Model of `re.sub(r'Art\.\s*(\d+)[º°]?', r'**Art. \1**', text)`. -/
def ptRule2 (t : List Char) : List Char := ptRule2Go 0 t

/-! ### Sanitizer -/

/-- C0/C1 control characters, the class `[\x00-\x1F\x7F-\x9F]` stripped
first by `sanitize_text`. -/
def isCtrl (c : Char) : Bool :=
  (c.toNat ≤ 0x1F) || (0x7F ≤ c.toNat && c.toNat ≤ 0x9F)

/-- The explicitly removed markers of `sanitize_text`: U+FFFD, the soft
hyphen U+00AD and the zero-width space U+200B (each replaced by `''`). -/
def isRemovedMarker (c : Char) : Bool :=
  c == '�' || c == '\xad' || c == '​'

/-- Scanner for `re.sub(r'\n{3,}', '\n\n', ...)`: runs of three or more
newlines collapse to two; shorter runs are kept. -/
def collapseNl3Go : Nat → List Char → List Char
  | skip + 1, _ :: rest => collapseNl3Go skip rest
  | _, [] => []
  | 0, c :: rest =>
    if c = '\n' then
      let run := 1 + (rest.takeWhile (· = '\n')).length
      if 3 ≤ run then '\n' :: '\n' :: collapseNl3Go (run - 1) rest
      else c :: collapseNl3Go 0 rest
    else c :: collapseNl3Go 0 rest

/-- Model of `re.sub(r'\n{3,}', '\n\n', text)`. -/
def collapseNl3 (t : List Char) : List Char := collapseNl3Go 0 t

/-- Model of `UniversalPDFProcessor.sanitize_text`: strip C0/C1 controls, UTF-8
round-trip (identity on Unicode scalar values), remove the three marker
characters, collapse whitespace runs to a single space, collapse runs of
three or more newlines. -/
def sanitize_text (t : List Char) : List Char :=
  collapseNl3 (collapseWs ((t.filter (fun c => !isCtrl c)).filter
    (fun c => !isRemovedMarker c)))

/-! ### Structure enhancer -/

/-- Roman numeral characters `[IVXLCDM]`. -/
def isRoman (c : Char) : Bool :=
  [('I' : Char), 'V', 'X', 'L', 'C', 'D', 'M'].contains c

/-- Scanner for
`re.sub(r'\n(\s*)(CAP[ÍI]TULO|CHAPTER)\s+([IVXLCDM]+)(\s*)', r'\n## \2 \3\n', ...)`. -/
def subChapterGo : Nat → List Char → List Char
  | skip + 1, _ :: rest => subChapterGo skip rest
  | _, [] => []
  | 0, c :: rest =>
    if c = '\n' then
      let w1 := rest.takeWhile isPySpace
      let r1 := rest.drop w1.length
      let kw? : Option (List Char) :=
        ["CAPÍTULO".toList, "CAPITULO".toList, "CHAPTER".toList].find?
          (fun a => a.isPrefixOf r1)
      match kw? with
      | some kw =>
        let r2 := r1.drop kw.length
        let w2 := r2.takeWhile isPySpace
        let r3 := r2.drop w2.length
        let rom := r3.takeWhile isRoman
        if w2.isEmpty || rom.isEmpty then c :: subChapterGo 0 rest
        else
          let w3 := (r3.drop rom.length).takeWhile isPySpace
          ['\n', '#', '#', ' '] ++ kw ++ [' '] ++ rom ++ ['\n'] ++
            subChapterGo (w1.length + kw.length + w2.length + rom.length + w3.length) rest
      | none => c :: subChapterGo 0 rest
    else c :: subChapterGo 0 rest

/-- Scanner for `re.sub(r'\n(\d+\.\d+\.?\s+)([^\n]+)', r'\n### \1\2\n', ...)`.
The backtracking corner at end of input (where `\s+` gives characters
back to `([^\n]+)`) is modelled faithfully: the greedy `\s+` keeps the
longest prefix of the whitespace run that leaves a non-newline character
for `([^\n]+)`. -/
def subNumberedGo : Nat → List Char → List Char
  | skip + 1, _ :: rest => subNumberedGo skip rest
  | _, [] => []
  | 0, c :: rest =>
    if c = '\n' then
      let d1 := rest.takeWhile pyIsDigit
      let r1 := rest.drop d1.length
      if d1.isEmpty then c :: subNumberedGo 0 rest
      else
        match r1 with
        | '.' :: r2 =>
          let d2 := r2.takeWhile pyIsDigit
          let r3 := r2.drop d2.length
          if d2.isEmpty then c :: subNumberedGo 0 rest
          else
            let dot2 : List Char := if r3.head? = some '.' then ['.'] else []
            let r4 := r3.drop dot2.length
            let ws := r4.takeWhile isPySpace
            let r5 := r4.drop ws.length
            if ws.isEmpty then c :: subNumberedGo 0 rest
            else
              match r5 with
              | _ :: _ =>
                let body := r5.takeWhile (· ≠ '\n')
                -- x ≠ '\n' since x is not whitespace at all
                ['\n', '#', '#', '#', ' '] ++ d1 ++ ['.'] ++ d2 ++ dot2 ++ ws ++ body ++ ['\n'] ++
                  subNumberedGo
                    (d1.length + 1 + d2.length + dot2.length + ws.length + body.length) rest
              | [] =>
                -- end of input after the whitespace run: `\s+` gives back its
                -- longest all-non-newline suffix's first character to `[^\n]+`
                let tn := (ws.reverse.takeWhile (· = '\n')).length
                if ws.length - tn ≥ 2 then
                  let keep := ws.take (ws.length - tn - 1)
                  let body := [ws.get! (ws.length - tn - 1)]
                  ['\n', '#', '#', '#', ' '] ++ d1 ++ ['.'] ++ d2 ++ dot2 ++ keep ++ body ++ ['\n'] ++
                    subNumberedGo
                      (d1.length + 1 + d2.length + dot2.length + keep.length + 1) rest
                else c :: subNumberedGo 0 rest
        | _ => c :: subNumberedGo 0 rest
    else c :: subNumberedGo 0 rest

/-- Scanner for `re.sub(r'\n(\s*[-*•])\s+', r'\n- ', ...)`. -/
def subBulletGo : Nat → List Char → List Char
  | skip + 1, _ :: rest => subBulletGo skip rest
  | _, [] => []
  | 0, c :: rest =>
    if c = '\n' then
      let w1 := rest.takeWhile isPySpace
      let r1 := rest.drop w1.length
      match r1 with
      | b :: r2 =>
        if [('-' : Char), '*', '•'].contains b then
          let w2 := r2.takeWhile isPySpace
          if w2.isEmpty then c :: subBulletGo 0 rest
          else ['\n', '-', ' '] ++ subBulletGo (w1.length + 1 + w2.length) rest
        else c :: subBulletGo 0 rest
      | [] => c :: subBulletGo 0 rest
    else c :: subBulletGo 0 rest

/-- Model of `UniversalPDFProcessor.enhance_structure`: the three substitutions,
applied in source order. -/
def enhance_structure (t : List Char) : List Char :=
  subBulletGo 0 (subNumberedGo 0 (subChapterGo 0 t))

/-! ### Processor state and error analysis -/

/-- The mutable per-instance state of `UniversalPDFProcessor`.
`error_patterns` models the `Counter` as an insertion-ordered key/count
list, `correction_map` models the `dict` as an insertion-ordered
key/value list. -/
structure ProcState where
  error_patterns : List (List Char × Nat)
  correction_map : List (List Char × List Char)
  detected_encoding : Option String
  language : String
  sanitization_attempted : Bool
deriving Repr, DecidableEq

/-- The state set by `UniversalPDFProcessor.__init__`. -/
def initState : ProcState :=
  { error_patterns := [], correction_map := [], detected_encoding := none,
    language := "auto", sanitization_attempted := false }

/-- Python `Counter.update` with a single key: increment it if present,
otherwise append it with count 1 (insertion order preserved). -/
def counterAdd (m : List (List Char × Nat)) (k : List Char) : List (List Char × Nat) :=
  if m.any (fun kv => kv.1 = k) then
    m.map (fun kv => if kv.1 = k then (kv.1, kv.2 + 1) else kv)
  else m ++ [(k, 1)]

/-- Python `dict` assignment `m[k] = v`: overwrite in place if the key is
present, otherwise append. -/
def dictInsert (m : List (List Char × List Char)) (k v : List Char) :
    List (List Char × List Char) :=
  if m.any (fun kv => kv.1 = k) then
    m.map (fun kv => if kv.1 = k then (kv.1, v) else kv)
  else m ++ [(k, v)]

/-- The character class
`[^\w\s.,;:?!@#$%&*()_+=\-[\]{}\\|"\'<>/À-ÿ]` whose matches
`analyze_errors` collects as invalid characters. -/
def isInvalidChar (c : Char) : Bool :=
  !(isW c || isPySpace c ||
    [('.' : Char), ',', ';', ':', '?', '!', '@', '#', '$', '%', '&', '*',
     '(', ')', '_', '+', '=', '-', '[', ']', '\x7b', '\x7d', '\\', '|', '"',
     '\x27', '<', '>', '/'].contains c ||
    ('À' ≤ c && c ≤ 'ÿ'))

/-- Model of `re.findall` over an ordered list of literal alternatives: at each
position try the alternatives in order, on a match consume it and record
the matched literal. -/
def scanLiterals (alts : List (List Char)) : Nat → List Char → List (List Char)
  | skip + 1, _ :: rest => scanLiterals alts skip rest
  | _, [] => []
  | 0, c :: rest =>
    match alts.find? (fun a => a.isPrefixOf (c :: rest)) with
    | some a => a :: scanLiterals alts (a.length - 1) rest
    | none => scanLiterals alts 0 rest

/-- The Portuguese anomaly alternation
`Ã[çãáéóõêâàúí]|PîS|Gradua,ÌO|CAPêTULO`, the character class expanded
into its eleven two-character literals (at most one of them can match at
a given position, so literal order within the class is immaterial). -/
def ptAlts : List (List Char) :=
  [['Ã', 'ç'], ['Ã', 'ã'], ['Ã', 'á'],
   ['Ã', 'é'], ['Ã', 'ó'], ['Ã', 'õ'],
   ['Ã', 'ê'], ['Ã', 'â'], ['Ã', 'à'],
   ['Ã', 'ú'], ['Ã', 'í'],
   ['P', 'î', 'S'],
   ['G', 'r', 'a', 'd', 'u', 'a', ',', 'Ì', 'O'],
   ['C', 'A', 'P', 'ê', 'T', 'U', 'L', 'O']]

/-- The English anomaly alternation `â€|â€“|â€™|â€œ|â€` (the first
alternative is a prefix of the others, so it always wins). -/
def enAlts : List (List Char) :=
  ["â€".toList, "â€“".toList, "â€™".toList, "â€œ".toList, "â€".toList]

/-- Counter of matches of the hyphenation pattern
`\b\w+-\s*\n\s*\w+\b` (`re.findall`; only the number of matches is used,
under the sentinel key `"hyphenated_word"`). -/
def hyphenCountGo : Nat → Bool → List Char → Nat
  | _, _, [] => 0
  | skip + 1, pw, _ :: rest => hyphenCountGo skip pw rest
  | 0, prevW, c :: rest =>
    if isW c && !prevW then
      match dehyphScan c rest with
      | (matched, _, n) => (if matched then 1 else 0) + hyphenCountGo n true rest
    else hyphenCountGo 0 (isW c) rest

/-- Number of `\b\w+-\s*\n\s*\w+\b` matches in a text. -/
def hyphen_count (t : List Char) : Nat := hyphenCountGo 0 false t

/-- The fixed `common_fixes` table of `analyze_errors`, in source order. -/
def common_fixes : List (List Char × List Char) :=
  [(['Ã', '§'], ['ç']), (['Ã', '£'], ['ã']), (['Ã', '¡'], ['á']),
   (['Ã', '©'], ['é']), (['Ã', '³'], ['ó']), (['Ã', 'µ'], ['õ']),
   (['Ã', 'ª'], ['ê']), (['Ã', '¢'], ['â']), (['Ã', ' '], ['à']),
   (['Ã', 'º'], ['ú']), (['Ã', '­'], ['í']),
   ("PîS".toList, "Pós".toList),
   ("Gradua,ÌO".toList, "Graduação".toList),
   ("CAPêTULO".toList, "CAPÍTULO".toList),
   ("â€œ".toList, ['"']), ("â€".toList, ['"']),
   ("â€™".toList, ['\x27']), ("â€“".toList, ['-'])]

/-- Sentinel key used by `analyze_errors` for hyphenation matches. -/
def hyphenKey : List Char := "hyphenated_word".toList

/-- Model of `UniversalPDFProcessor.analyze_errors`.  The chardet library is the
parameter `chard` (returning the detected encoding name of the text's
UTF-8 bytes, `none` modelling a null result); the unidecode library is
the parameter `ud`. -/
def analyze_errors (ud : List Char → List Char) (chard : List Char → Option String)
    (s : ProcState) (t : List Char) : ProcState :=
  let enc := (chard t).getD "utf-8"
  let ep := ((t.filter isInvalidChar).map (fun c => [c])).foldl counterAdd s.error_patterns
  let ep :=
    if s.language = "portuguese" then (scanLiterals ptAlts 0 t).foldl counterAdd ep
    else if s.language = "english" then (scanLiterals enAlts 0 t).foldl counterAdd ep
    else ep
  let ep := (List.replicate (hyphen_count t) hyphenKey).foldl counterAdd ep
  let cm := ep.foldl
    (fun m kv =>
      match (common_fixes.find? (fun f => f.1 = kv.1)).map (fun f => f.2) with
      | some fix => dictInsert m kv.1 fix
      | none =>
        let corrected := ud kv.1
        if corrected ≠ kv.1 ∧ corrected ≠ [] then dictInsert m kv.1 corrected else m)
    s.correction_map
  { s with detected_encoding := some enc, error_patterns := ep, correction_map := cm }

/-! ### Corrector -/

/-- Model of `UniversalPDFProcessor.auto_correct`.  The first source step (a UTF-8
encode/decode round-trip with undecodable data ignored, applied when the
text is not pure ASCII) is the identity on sequences of Unicode scalar
values and is therefore not represented. -/
def auto_correct (s : ProcState) (t : List Char) : List Char :=
  let t := s.correction_map.foldl (fun acc kv => pyReplace kv.1 kv.2 acc) t
  let t := dehyph t
  let t := collapseWs t
  let t := rehyphen t
  if s.language = "portuguese" then ptRule2 (ptRule1 t) else t

/-! ### Extraction, formatting and orchestration

The extractors, chardet, unidecode, the Docling converter and the
byte-level re-encode of `fallback_sanitization` are external
collaborators; they enter the model as parameters.  An extractor that
raises is a `none` candidate (the `except` clause skips it); a Docling
call that raises (`UnicodeEncodeError` or any other exception) is a
`none` result; a re-encode that raises makes `recode` return `none`. -/

/-- External collaborators of the processor, as oracle functions. -/
structure PFParams where
  ud : List Char → List Char
  chard : List Char → Option String
  docling : List Char → Option (List Char)
  recode : List Char → Option (List Char)

/-- The selection loop of `extract_text`: keep `(best_text, best_score)`,
starting from `("", 0)`; skip raised (`none`) and falsy (empty)
candidates; update only on a strictly larger score. -/
def extractBest : List (Option (List Char)) → List Char × ℚ → List Char × ℚ
  | [], best => best
  | none :: rest, best => extractBest rest best
  | some t :: rest, best =>
    if t.isEmpty then extractBest rest best
    else if evaluate_text_quality t > best.2 then extractBest rest (t, evaluate_text_quality t)
    else extractBest rest best

/-- Model of `UniversalPDFProcessor.extract_text`, as a function of the ordered
candidate list produced by the extractors (`_extract_with_fitz` first,
then `_extract_with_pdfplumber`); returns the selected text (the empty
list when every candidate failed or scored zero). -/
def extract_text_core (cands : List (Option (List Char))) : List Char :=
  (extractBest cands ([], 0)).1

/-- Model of `UniversalPDFProcessor.fallback_sanitization`: re-encode through the
chardet guess (the external byte-level round-trip is the `recode`
parameter) and sanitize; if that raises, fall back to the pure-ASCII
projection (`text.encode('ascii', errors='ignore')`). -/
def fallback_sanitization (recode : List Char → Option (List Char)) (t : List Char) :
    List Char :=
  match recode t with
  | some r => sanitize_text r
  | none => t.filter (fun c => c.toNat < 128)

/-- Model of `UniversalPDFProcessor.process_with_docling`: sanitize, hand the text
to the Docling converter, and on any exception return the
fallback-sanitized original input instead of propagating. -/
def process_with_docling (P : PFParams) (t : List Char) : List Char :=
  match P.docling (sanitize_text t) with
  | some md => md
  | none => fallback_sanitization P.recode t

/-- Result of one `process_file` call.  `output = some txt` means the
call wrote `txt` to the output artifact and returned it; `output = none`
means the call returned `None` and wrote nothing.  `fallbackRuns` counts
how many times the guarded deep-sanitization branch ran, and
`fallbackInput` records the text it was handed. -/
structure PFResult where
  state : ProcState
  output : Option (List Char)
  fallbackRuns : Nat
  fallbackInput : Option (List Char)
deriving Repr, DecidableEq

/-- The part of `UniversalPDFProcessor.process_file` that runs once a
non-empty canonical extraction `raw` has been selected: detect the
language (set inside `extract_text` on success), analyze errors, correct,
structure, format, and take the guarded deep-sanitization branch when the
formatted text still contains U+FFFD. -/
def process_core (P : PFParams) (s₁ : ProcState) (raw : List Char) : PFResult :=
  let s := { s₁ with language := detect_language raw }
  let s := analyze_errors P.ud P.chard s raw
  let corrected := auto_correct s raw
  let structured := enhance_structure corrected
  let final := process_with_docling P structured
  if final.contains '�' && !s.sanitization_attempted then
    let s := { s with sanitization_attempted := true }
    let final2 := process_with_docling P (fallback_sanitization P.recode raw)
    ⟨s, some final2, 1, some raw⟩
  else ⟨s, some final, 0, none⟩

/-- Model of `UniversalPDFProcessor.process_file`.  `inputExists` models
`os.path.exists(input_path)`; `cands` is the ordered extractor output. -/
def process_file (P : PFParams) (inputExists : Bool) (cands : List (Option (List Char)))
    (s₀ : ProcState) : PFResult :=
  let s := { s₀ with sanitization_attempted := false }
  if !inputExists then ⟨s, none, 0, none⟩
  else
    let raw := extract_text_core cands
    if raw.isEmpty then ⟨s, none, 0, none⟩
    else process_core P s raw

/-! ## Toolkit lemmas -/

theorem drop_takeWhile_length (p : Char → Bool) (l : List Char) :
    l.drop (l.takeWhile p).length = l.dropWhile p := by
  induction l with
  | nil => rfl
  | cons c rest ih =>
    by_cases h : p c
    · simp [List.takeWhile_cons, List.dropWhile_cons, h, ih]
    · simp [List.takeWhile_cons, List.dropWhile_cons, h]

theorem dropWhile_head_neg {p : Char → Bool} {l : List Char} {x : Char} {v : List Char}
    (h : l.dropWhile p = x :: v) : p x = false := by
  induction l with
  | nil => simp at h
  | cons c rest ih =>
    rw [List.dropWhile_cons] at h
    by_cases hc : p c
    · exact ih (by simpa [hc] using h)
    · simp [hc] at h
      simp [← h.1, Bool.not_eq_true] at hc ⊢
      exact hc

theorem takeWhile_append_all {p : Char → Bool} {s : List Char} (r : List Char)
    (h : ∀ c ∈ s, p c = true) : (s ++ r).takeWhile p = s ++ r.takeWhile p := by
  induction s with
  | nil => rfl
  | cons c rest ih =>
    have hc : p c = true := h c (List.mem_cons_self _ _)
    simp only [List.cons_append, List.takeWhile_cons, hc, if_true]
    rw [ih fun d hd => h d (List.mem_cons_of_mem _ hd)]

/-! ## Quality-scorer lemmas -/

theorem validFrac_nonneg (t : List Char) : 0 ≤ validFrac t := by
  unfold validFrac
  positivity

theorem validFrac_le_one {t : List Char} (h : t ≠ []) : validFrac t ≤ 1 := by
  unfold validFrac
  have hl : (0 : ℚ) < (t.length : ℚ) := by
    exact_mod_cast List.length_pos.mpr h
  rw [div_le_one hl]
  exact_mod_cast List.countP_le_length _

theorem problemFrac_nonneg (t : List Char) : 0 ≤ problemFrac t := by
  unfold problemFrac
  positivity

/-- The unconditional-branch form of the scorer for long texts. -/
theorem evaluate_text_quality_eq {t : List Char} (h : ¬ t.length < 100) :
    evaluate_text_quality t =
      validFrac t * (0.6 : ℚ)
        + (if spaceInRange t then (0.1 : ℚ) else 0) * (0.2 : ℚ)
        + (1 - min (problemFrac t * 10) 1) * (0.2 : ℚ) := by
  unfold evaluate_text_quality
  rw [if_neg h]

theorem evaluate_text_quality_nonneg (t : List Char) : 0 ≤ evaluate_text_quality t := by
  by_cases h : t.length < 100
  · unfold evaluate_text_quality
    rw [if_pos h]
  · rw [evaluate_text_quality_eq h]
    have h1 : 0 ≤ validFrac t := validFrac_nonneg t
    have h2 : (0 : ℚ) ≤ if spaceInRange t then (0.1 : ℚ) else 0 := by positivity
    have h3 : min (problemFrac t * 10) 1 ≤ 1 := min_le_right _ _
    nlinarith

theorem evaluate_text_quality_le_one (t : List Char) : evaluate_text_quality t ≤ 1 := by
  by_cases h : t.length < 100
  · unfold evaluate_text_quality
    rw [if_pos h]
    norm_num
  · rw [evaluate_text_quality_eq h]
    have hne : t ≠ [] := by
      intro he
      rw [he] at h
      simp at h
    have h1 : validFrac t ≤ 1 := validFrac_le_one hne
    have h2 : (if spaceInRange t then (0.1 : ℚ) else 0) ≤ (0.1 : ℚ) := by
      split <;> norm_num
    have h3 : 0 ≤ min (problemFrac t * 10) 1 := by
      have := problemFrac_nonneg t
      positivity
    nlinarith

/-- Positivity of the score for an all-valid text of full length, used to
drive concrete runs of the extractor-selection fold. -/
theorem evaluate_text_quality_pos {t : List Char} (h100 : 100 ≤ t.length)
    (hall : t.all isQualityValid = true) : 0 < evaluate_text_quality t := by
  have hlen : ¬ t.length < 100 := by omega
  have hne : t ≠ [] := by
    intro he
    rw [he] at h100
    simp at h100
  have hv : validFrac t = 1 := by
    unfold validFrac
    rw [List.countP_eq_length.mpr (List.all_eq_true.mp hall)]
    have hl : (t.length : ℚ) ≠ 0 := by
      have : t.length ≠ 0 := by omega
      exact_mod_cast this
    exact div_self hl
  rw [evaluate_text_quality_eq hlen, hv]
  have h2 : (0 : ℚ) ≤ if spaceInRange t then (0.1 : ℚ) else 0 := by positivity
  have h3 : min (problemFrac t * 10) 1 ≤ 1 := min_le_right _ _
  nlinarith

/-! ## Claim C3 -/

/-- A 100-character text with a single replacement character: the code
counts it twice (its marker list spells U+FFFD both as `'�'` and as
`'�'`), the claim's plain fraction counts it once. -/
def qaShort : List Char := List.replicate 99 'a' ++ ['�']

set_option maxRecDepth 10000 in
/-- C3, counterexample: on a 100-character text holding one replacement
character, the scorer does not return the claim's formula (the code gives
0.754 where the claim's `problem_ratio` reading gives 0.774). -/
theorem C3_counterexample : evaluate_text_quality qaShort ≠ claimQualityScore qaShort := by
  have h1 : qaShort.countP isQualityValid = 99 := by decide
  have h2 : qaShort.count ' ' = 0 := by decide
  have h3 : qaShort.count '�' = 1 := by decide
  have h4 : qaShort.count '\x00' = 0 := by decide
  have h5 : qaShort.length = 100 := by decide
  have h6 : qaShort.countP (fun c => c == '�' || c == '\x00') = 1 := by decide
  simp only [evaluate_text_quality, claimQualityScore, validFrac, spaceFrac, problemFrac,
    spaceInRange, h1, h2, h3, h4, h5, h6, min_def]
  norm_num

/-- C3, amended: the quality scorer returns exactly 0 when the text has
fewer than 100 characters, and otherwise
`0.6*valid_ratio + 0.2*(0.1 if space_ratio strictly between 0.1 and 0.3
else 0) + 0.2*(1 - min(10*problem_ratio, 1))`, where `problem_ratio`
counts the replacement character U+FFFD twice and NUL once, divided by
the length; the result always lies in [0,1]. -/
theorem C3_amended (t : List Char) :
    evaluate_text_quality t =
      (if t.length < 100 then 0 else
        (0.6 : ℚ) * validFrac t
          + (0.2 : ℚ) * (if spaceInRange t then (0.1 : ℚ) else 0)
          + (0.2 : ℚ) *
            (1 - min (10 * (((2 * t.count '�' + t.count '\x00' : ℕ) : ℚ) / (t.length : ℚ))) 1))
      ∧ 0 ≤ evaluate_text_quality t ∧ evaluate_text_quality t ≤ 1 := by
  refine ⟨?_, evaluate_text_quality_nonneg t, evaluate_text_quality_le_one t⟩
  by_cases h : t.length < 100
  · unfold evaluate_text_quality
    rw [if_pos h, if_pos h]
  · rw [evaluate_text_quality_eq h, if_neg h]
    have hp : problemFrac t = ((2 * t.count '�' + t.count '\x00' : ℕ) : ℚ) / (t.length : ℚ) := by
      unfold problemFrac
      push_cast
      ring_nf
    rw [hp, mul_comm (((2 * t.count '�' + t.count '\x00' : ℕ) : ℚ) / (t.length : ℚ)) 10]
    ring

/-! ## Claim C4 -/

/-- First quality-ordering candidate: all characters valid, half spaces
(outside the bonus window), no corruption markers. -/
def qaText1 : List Char := List.replicate 200 'a' ++ List.replicate 200 ' '

/-- Second quality-ordering candidate: one invalid NUL, space share 20%
(inside the bonus window). -/
def qaText2 : List Char := List.replicate 319 'a' ++ List.replicate 80 ' ' ++ ['\x00']

set_option maxRecDepth 10000 in
/-- C4, counterexample: both texts have at least 100 characters, the
first has strictly higher `valid_ratio` and strictly lower
`problem_ratio`, yet the scorer ranks the second strictly higher (its
space share earns the bonus the first misses). -/
theorem C4_counterexample : 100 ≤ qaText1.length ∧ 100 ≤ qaText2.length ∧
    validFrac qaText2 < validFrac qaText1 ∧
    problemFrac qaText1 < problemFrac qaText2 ∧
    evaluate_text_quality qaText1 < evaluate_text_quality qaText2 := by
  have h5 : qaText1.length = 400 := by decide
  have h5' : qaText2.length = 400 := by decide
  have h1 : qaText1.countP isQualityValid = 400 := by decide
  have h1' : qaText2.countP isQualityValid = 399 := by decide
  have h2 : qaText1.count ' ' = 200 := by decide
  have h2' : qaText2.count ' ' = 80 := by decide
  have h3 : qaText1.count '�' = 0 := by decide
  have h3' : qaText2.count '�' = 0 := by decide
  have h4 : qaText1.count '\x00' = 0 := by decide
  have h4' : qaText2.count '\x00' = 1 := by decide
  refine ⟨by omega, by omega, ?_, ?_, ?_⟩
  · simp only [validFrac, h1, h1', h5, h5']
    norm_num
  · simp only [problemFrac, h3, h3', h4, h4', h5, h5']
    norm_num
  · simp only [evaluate_text_quality, validFrac, spaceFrac, problemFrac,
      spaceInRange, h1, h1', h2, h2', h3, h3', h4, h4', h5, h5', min_def]
    norm_num

/-- C4, amended: for two texts of length at least 100, if the first has
strictly higher `valid_ratio`, strictly lower `problem_ratio`, and the
same space-bonus eligibility as the second, then the scorer gives the
first a strictly higher score. -/
theorem C4_amended (t₁ t₂ : List Char) (h₁ : 100 ≤ t₁.length) (h₂ : 100 ≤ t₂.length)
    (hv : validFrac t₂ < validFrac t₁) (hp : problemFrac t₁ < problemFrac t₂)
    (hs : spaceInRange t₁ ↔ spaceInRange t₂) :
    evaluate_text_quality t₂ < evaluate_text_quality t₁ := by
  rw [evaluate_text_quality_eq (by omega), evaluate_text_quality_eq (by omega)]
  have hb : (if spaceInRange t₂ then (0.1 : ℚ) else 0) =
      (if spaceInRange t₁ then (0.1 : ℚ) else 0) := by
    by_cases h : spaceInRange t₁
    · rw [if_pos h, if_pos (hs.mp h)]
    · rw [if_neg h, if_neg fun h2 => h (hs.mpr h2)]
  rw [hb]
  have hm : min (problemFrac t₁ * 10) 1 ≤ min (problemFrac t₂ * 10) 1 :=
    min_le_min (by nlinarith) le_rfl
  nlinarith

/-- First witness pair element for the amended quality ordering. -/
def qaText3 : List Char := List.replicate 398 'a' ++ ['€', '\x00']

set_option maxRecDepth 10000 in
/-- Witness for `C4_amended` at a concrete pair (neither text earns the
space bonus). -/
theorem C4_amended_witness :
    validFrac qaText3 < validFrac qaText1 ∧
      evaluate_text_quality qaText3 < evaluate_text_quality qaText1 := by
  have h5 : qaText1.length = 400 := by decide
  have h5' : qaText3.length = 400 := by decide
  have h1 : qaText1.countP isQualityValid = 400 := by decide
  have h1' : qaText3.countP isQualityValid = 398 := by decide
  have h2 : qaText1.count ' ' = 200 := by decide
  have h2' : qaText3.count ' ' = 0 := by decide
  have h3 : qaText1.count '�' = 0 := by decide
  have h3' : qaText3.count '�' = 0 := by decide
  have h4 : qaText1.count '\x00' = 0 := by decide
  have h4' : qaText3.count '\x00' = 1 := by decide
  have hv : validFrac qaText3 < validFrac qaText1 := by
    simp only [validFrac, h1, h1', h5, h5']
    norm_num
  refine ⟨hv, ?_⟩
  refine C4_amended qaText1 qaText3 (by omega) (by omega) hv ?_ ?_
  · simp only [problemFrac, h3, h3', h4, h4', h5, h5']
    norm_num
  · simp only [spaceInRange, spaceFrac, h2, h2', h5, h5']
    norm_num

/-! ## Claim C9 -/

/-- C9: `detect_language` returns `"portuguese"` exactly when the
Portuguese indicator count (occurrences of `'o'`, `'a'`, `'de'`, `'que'`,
`'e'` in the lowercased text) strictly exceeds the English indicator
count (occurrences of `'the'`, `'and'`, `'of'`, `'to'`, `'in'`),
`"english"` exactly when the English count strictly exceeds, and
`"unknown"` exactly when the counts are equal. -/
theorem C9_detect_language (t : List Char) :
    (detect_language t = "portuguese" ↔ enScore t < ptScore t) ∧
    (detect_language t = "english" ↔ ptScore t < enScore t) ∧
    (detect_language t = "unknown" ↔ ptScore t = enScore t) := by
  unfold detect_language
  rcases Nat.lt_trichotomy (ptScore t) (enScore t) with h | h | h
  · rw [if_neg (by omega), if_pos h]
    refine ⟨⟨fun he => absurd he (by decide), fun hlt => by omega⟩,
      ⟨fun _ => h, fun _ => rfl⟩,
      ⟨fun he => absurd he (by decide), fun he => by omega⟩⟩
  · rw [if_neg (by omega), if_neg (by omega)]
    refine ⟨⟨fun he => absurd he (by decide), fun hlt => by omega⟩,
      ⟨fun he => absurd he (by decide), fun hlt => by omega⟩,
      ⟨fun _ => h, fun _ => rfl⟩⟩
  · rw [if_pos h]
    refine ⟨⟨fun _ => h, fun _ => rfl⟩,
      ⟨fun he => absurd he (by decide), fun hlt => by omega⟩,
      ⟨fun he => absurd he (by decide), fun he => by omega⟩⟩

/-! ## Claim C10 -/

theorem mem_collapseWsGo {c : Char} :
    ∀ {b : Bool} {l : List Char}, c ∈ collapseWsGo b l →
      c = ' ' ∨ (c ∈ l ∧ isPySpace c = false) := by
  intro b l
  induction l generalizing b with
  | nil => intro h; simp [collapseWsGo] at h
  | cons x rest ih =>
    intro h
    unfold collapseWsGo at h
    by_cases hx : isPySpace x
    · rw [if_pos hx] at h
      by_cases hb : b
      · subst hb
        rw [if_pos rfl] at h
        rcases ih h with h' | ⟨hm, hs⟩
        · exact Or.inl h'
        · exact Or.inr ⟨List.mem_cons_of_mem _ hm, hs⟩
      · simp only [Bool.not_eq_true] at hb
        subst hb
        simp only [Bool.false_eq_true, if_false, List.mem_cons] at h
        rcases h with h' | h'
        · exact Or.inl h'
        · rcases ih h' with h'' | ⟨hm, hs⟩
          · exact Or.inl h''
          · exact Or.inr ⟨List.mem_cons_of_mem _ hm, hs⟩
    · rw [if_neg hx] at h
      rcases List.mem_cons.mp h with h' | h'
      · subst h'
        exact Or.inr ⟨List.mem_cons_self _ _, Bool.not_eq_true _ ▸ (by simpa using hx)⟩
      · rcases ih h' with h'' | ⟨hm, hs⟩
        · exact Or.inl h''
        · exact Or.inr ⟨List.mem_cons_of_mem _ hm, hs⟩

theorem no_nl_collapseWs (l : List Char) : '\n' ∉ collapseWs l := by
  intro h
  rcases mem_collapseWsGo h with h' | ⟨_, hs⟩
  · exact absurd h' (by decide)
  · exact absurd hs (by decide)

theorem collapseNl3Go_of_no_nl {l : List Char} (h : '\n' ∉ l) : collapseNl3Go 0 l = l := by
  induction l with
  | nil => rfl
  | cons c rest ih =>
    have hc : ¬ c = '\n' := fun he => h (he ▸ List.mem_cons_self _ _)
    unfold collapseNl3Go
    rw [if_neg hc, ih fun hm => h (List.mem_cons_of_mem _ hm)]

/-- C10: every character of the sanitizer's output is neither a newline,
nor a C0/C1 control character, nor one of the removed markers (U+FFFD,
U+00AD, U+200B); consequently the text `process_with_docling` stages for
the Formatter (which is exactly `sanitize_text` of its input) is a single
line, and the final blank-line-collapsing substitution of the sanitizer
rewrites nothing. -/
theorem C10_sanitize_clean (t : List Char) :
    (∀ c ∈ sanitize_text t,
      c ≠ '\n' ∧ isCtrl c = false ∧ c ≠ '�' ∧ c ≠ '\xad' ∧ c ≠ '​') ∧
    sanitize_text t =
      collapseWs ((t.filter fun c => !isCtrl c).filter fun c => !isRemovedMarker c) := by
  have hX : sanitize_text t =
      collapseWs ((t.filter fun c => !isCtrl c).filter fun c => !isRemovedMarker c) := by
    unfold sanitize_text
    exact collapseNl3Go_of_no_nl (no_nl_collapseWs _)
  refine ⟨?_, hX⟩
  intro c hc
  rw [hX] at hc
  rcases mem_collapseWsGo hc with h' | ⟨hm, _⟩
  · subst h'
    refine ⟨by decide, by decide, by decide, by decide, by decide⟩
  · have h1 := List.of_mem_filter hm
    have h2 := List.of_mem_filter (List.mem_of_mem_filter hm)
    simp only [Bool.not_eq_true', isRemovedMarker, Bool.or_eq_false_iff, beq_eq_false_iff_ne,
      ne_eq] at h1 h2
    exact ⟨fun he => by rw [he] at h2; exact absurd h2 (by decide), h2, h1.1.1, h1.1.2, h1.2⟩

/-- Witness for `C10_sanitize_clean` at a concrete input and output
character. -/
theorem C10_sanitize_clean_witness :
    'a' ∈ sanitize_text ("a\x01\n\n\n b".toList) ∧
      ('a' ≠ '\n' ∧ isCtrl 'a' = false ∧ 'a' ≠ '�' ∧ 'a' ≠ '\xad' ∧ 'a' ≠ '​') :=
  ⟨by decide, (C10_sanitize_clean ("a\x01\n\n\n b".toList)).1 'a' (by decide)⟩

/-! ## Claim C5 -/

theorem evaluate_text_quality_nil : evaluate_text_quality [] = 0 := rfl

theorem extractBest_nil (acc : List Char × ℚ) : extractBest [] acc = acc := rfl

theorem extractBest_none (rest : List (Option (List Char))) (acc : List Char × ℚ) :
    extractBest (none :: rest) acc = extractBest rest acc := rfl

theorem extractBest_some (t : List Char) (rest : List (Option (List Char)))
    (acc : List Char × ℚ) :
    extractBest (some t :: rest) acc =
      if t.isEmpty then extractBest rest acc
      else if evaluate_text_quality t > acc.2 then extractBest rest (t, evaluate_text_quality t)
      else extractBest rest acc := rfl

/-- A positive-scoring non-empty sole candidate is selected. -/
theorem extract_single {t : List Char} (hq : 0 < evaluate_text_quality t) (hne : t ≠ []) :
    extract_text_core [some t] = t := by
  unfold extract_text_core
  rw [extractBest_some, if_neg (by simpa [List.isEmpty_iff] using hne),
    if_pos (by simpa using hq), extractBest_nil]

/-- A positive-scoring non-empty first candidate followed by a failed
extractor is selected. -/
theorem extract_pair_first {t : List Char} (hq : 0 < evaluate_text_quality t) (hne : t ≠ []) :
    extract_text_core [some t, none] = t := by
  unfold extract_text_core
  rw [extractBest_some, if_neg (by simpa [List.isEmpty_iff] using hne),
    if_pos (by simpa using hq), extractBest_none, extractBest_nil]

/-- C5, counterexample: two non-empty extractions with equal quality
scores (both zero, being shorter than 100 characters) do not make the
output equal the earlier extractor's text — `extract_text` returns the
empty string instead, because its running best starts at score 0 and is
only replaced on a strict improvement. -/
theorem C5_counterexample :
    evaluate_text_quality ("abc".toList) = evaluate_text_quality ("xyz".toList) ∧
      ("abc".toList ≠ []) ∧
      extract_text_core [some ("abc".toList), some ("xyz".toList)] ≠ "abc".toList := by
  refine ⟨by decide, by decide, ?_⟩
  intro h
  exact absurd h (by decide)

/-- C5, amended: over the ordered candidate pair (fitz first, then
pdfplumber), `extract_text` keeps the first candidate whenever its score
is positive and not beaten strictly by the second (so equal positive
scores keep the earlier extractor), switches to the second on a strictly
higher score, and returns the empty extraction when both score zero. -/
theorem C5_amended (t₁ t₂ : List Char) :
    (0 < evaluate_text_quality t₁ → evaluate_text_quality t₂ ≤ evaluate_text_quality t₁ →
      extract_text_core [some t₁, some t₂] = t₁) ∧
    (evaluate_text_quality t₁ < evaluate_text_quality t₂ →
      extract_text_core [some t₁, some t₂] = t₂) ∧
    (evaluate_text_quality t₁ = 0 → evaluate_text_quality t₂ = 0 →
      extract_text_core [some t₁, some t₂] = []) := by
  refine ⟨?_, ?_, ?_⟩
  · intro hq hle
    have hne : t₁ ≠ [] := by
      intro he
      rw [he, evaluate_text_quality_nil] at hq
      exact lt_irrefl _ hq
    unfold extract_text_core
    rw [extractBest_some, if_neg (by simpa [List.isEmpty_iff] using hne),
      if_pos (by simpa using hq), extractBest_some]
    by_cases h2 : t₂.isEmpty = true
    · rw [if_pos h2, extractBest_nil]
    · rw [if_neg h2, if_neg (by simpa using not_lt.mpr hle), extractBest_nil]
  · intro hlt
    have hq2 : 0 < evaluate_text_quality t₂ :=
      lt_of_le_of_lt (evaluate_text_quality_nonneg t₁) hlt
    have hne2 : t₂ ≠ [] := by
      intro he
      rw [he, evaluate_text_quality_nil] at hq2
      exact lt_irrefl _ hq2
    unfold extract_text_core
    rw [extractBest_some]
    by_cases h1 : t₁.isEmpty = true
    · rw [if_pos h1, extractBest_some, if_neg (by simpa [List.isEmpty_iff] using hne2),
        if_pos (by simpa using hq2), extractBest_nil]
    · rw [if_neg h1]
      by_cases hq1 : 0 < evaluate_text_quality t₁
      · rw [if_pos (by simpa using hq1), extractBest_some,
          if_neg (by simpa [List.isEmpty_iff] using hne2),
          if_pos (by simpa using hlt), extractBest_nil]
      · rw [if_neg (by simpa using hq1), extractBest_some,
          if_neg (by simpa [List.isEmpty_iff] using hne2),
          if_pos (by simpa using hq2), extractBest_nil]
  · intro h1 h2
    unfold extract_text_core
    rw [extractBest_some]
    by_cases he1 : t₁.isEmpty = true
    · rw [if_pos he1, extractBest_some]
      by_cases he2 : t₂.isEmpty = true
      · rw [if_pos he2, extractBest_nil]
      · rw [if_neg he2, if_neg (by rw [h2]; simp), extractBest_nil]
    · rw [if_neg he1, if_neg (by rw [h1]; simp), extractBest_some]
      by_cases he2 : t₂.isEmpty = true
      · rw [if_pos he2, extractBest_nil]
      · rw [if_neg he2, if_neg (by rw [h2]; simp), extractBest_nil]

set_option maxRecDepth 10000 in
/-- Witness for `C5_amended`: two long all-valid texts of equal positive
score; the earlier extractor's text wins the tie. -/
theorem C5_amended_witness :
    extract_text_core [some (List.replicate 150 'a'), some (List.replicate 120 'b')] =
      List.replicate 150 'a' := by
  have e1 : evaluate_text_quality (List.replicate 150 'a') = 0.8 := by
    simp only [evaluate_text_quality, validFrac, spaceFrac, problemFrac, spaceInRange,
      show (List.replicate 150 'a').length = 150 from by decide,
      show (List.replicate 150 'a').countP isQualityValid = 150 from by decide,
      show (List.replicate 150 'a').count ' ' = 0 from by decide,
      show (List.replicate 150 'a').count '�' = 0 from by decide,
      show (List.replicate 150 'a').count '\x00' = 0 from by decide, min_def]
    norm_num
  have e2 : evaluate_text_quality (List.replicate 120 'b') = 0.8 := by
    simp only [evaluate_text_quality, validFrac, spaceFrac, problemFrac, spaceInRange,
      show (List.replicate 120 'b').length = 120 from by decide,
      show (List.replicate 120 'b').countP isQualityValid = 120 from by decide,
      show (List.replicate 120 'b').count ' ' = 0 from by decide,
      show (List.replicate 120 'b').count '�' = 0 from by decide,
      show (List.replicate 120 'b').count '\x00' = 0 from by decide, min_def]
    norm_num
  exact (C5_amended (List.replicate 150 'a') (List.replicate 120 'b')).1
    (by rw [e1]; norm_num) (by rw [e1, e2])

/-! ## Claim C7 -/

theorem extractBest_all_zero :
    ∀ cands : List (Option (List Char)),
      (∀ t, some t ∈ cands → evaluate_text_quality t = 0) →
      extractBest cands ([], 0) = ([], 0) := by
  intro cands
  induction cands with
  | nil => intro _; rfl
  | cons c rest ih =>
    intro h
    match c with
    | none =>
      rw [extractBest_none]
      exact ih fun t ht => h t (List.mem_cons_of_mem _ ht)
    | some t =>
      rw [extractBest_some]
      by_cases he : t.isEmpty = true
      · rw [if_pos he]
        exact ih fun u hu => h u (List.mem_cons_of_mem _ hu)
      · rw [if_neg he, if_neg (by rw [h t (List.mem_cons_self _ _)]; simp)]
        exact ih fun u hu => h u (List.mem_cons_of_mem _ hu)

/-- C7: when every extractor fails (is absent from the candidate list)
or yields text scoring zero — which includes empty and
shorter-than-100-character extractions — `process_file` returns `None`
and writes no output artifact (`output = none` models both). -/
theorem C7_no_usable_extraction (P : PFParams) (cands : List (Option (List Char)))
    (s : ProcState) (h : ∀ t, some t ∈ cands → evaluate_text_quality t = 0) :
    (process_file P true cands s).output = none := by
  have he : extract_text_core cands = [] := by
    unfold extract_text_core
    rw [extractBest_all_zero cands h]
  unfold process_file
  rw [he]
  rfl

/-- Trivial external collaborators: identity transliteration, a chardet
returning no guess, an identity Docling converter, an identity
re-encode. -/
def PTriv : PFParams := ⟨fun u => u, fun _ => none, fun t => some t, fun t => some t⟩

/-- Witness for `C7_no_usable_extraction`: one short (5-character,
score-0) extraction and one failed extractor. -/
theorem C7_no_usable_extraction_witness :
    (process_file PTriv true [some ("abcde".toList), none] initState).output = none :=
  C7_no_usable_extraction PTriv _ initState (by
    intro t ht
    rcases List.mem_cons.mp ht with h1 | h1
    · cases Option.some.inj h1
      decide
    · rcases List.mem_cons.mp h1 with h2 | h2
      · exact Option.noConfusion h2
      · exact absurd h2 (List.not_mem_nil _))

/-- When extraction succeeds, `process_file` is the post-selection core
run on the reset state. -/
theorem process_file_eq_core (P : PFParams) (cands : List (Option (List Char)))
    (s : ProcState) (raw : List Char) (hr : extract_text_core cands = raw)
    (hne : raw ≠ []) :
    process_file P true cands s =
      process_core P { s with sanitization_attempted := false } raw := by
  unfold process_file
  rw [hr]
  simp [List.isEmpty_iff, hne]

/-! ## Claim C8 -/

/-- C8: when the Docling call raises (modelled as `docling` returning
`none` on the sanitized text), `process_with_docling` returns the
fallback-sanitized version of its input text rather than propagating the
exception (the model function is total, so nothing propagates). -/
theorem C8_docling_exception (P : PFParams) (t : List Char)
    (h : P.docling (sanitize_text t) = none) :
    process_with_docling P t = fallback_sanitization P.recode t := by
  unfold process_with_docling
  rw [h]

/-- External collaborators whose Docling converter always raises. -/
def PFail : PFParams := ⟨fun u => u, fun _ => none, fun _ => none, fun t => some t⟩

/-- Witness for `C8_docling_exception` at a concrete text. -/
theorem C8_docling_exception_witness :
    process_with_docling PFail ("x y".toList) =
      fallback_sanitization PFail.recode ("x y".toList) :=
  C8_docling_exception PFail ("x y".toList) rfl

/-! ## Claim C6 -/

/-- C6: with a usable extraction, a `process_file` call runs the guarded
deep-sanitization branch at most once; when the branch runs, its input is
the original canonical extraction (`raw_text`), not the corrected or
structured text; and an output is still produced and written. -/
theorem C6_fallback_once (P : PFParams) (cands : List (Option (List Char)))
    (s : ProcState) (h : extract_text_core cands ≠ []) :
    (process_file P true cands s).fallbackRuns ≤ 1 ∧
    ((process_file P true cands s).fallbackRuns = 1 →
      (process_file P true cands s).fallbackInput = some (extract_text_core cands)) ∧
    (process_file P true cands s).output.isSome = true := by
  rw [process_file_eq_core P cands s _ rfl h]
  simp only [process_core]
  split
  · exact ⟨le_refl 1, fun _ => rfl, rfl⟩
  · refine ⟨Nat.zero_le 1, fun hc => ?_, rfl⟩
    simp at hc

/-- External collaborators whose Docling converter always returns a
replacement character, forcing the formatting-failure path twice. -/
def PFFFD : PFParams := ⟨fun u => u, fun _ => none, fun _ => some ['�'], fun t => some t⟩

/-- A 150-character all-valid extraction. -/
def longText : List Char := List.replicate 150 'a'

set_option maxRecDepth 10000 in
/-- Witness for `C6_fallback_once`: a run whose formatter output keeps
the corruption marker both times; the fallback branch runs exactly once,
on the raw extraction, and an output is still written. -/
theorem C6_fallback_once_witness :
    (process_file PFFFD true [some longText] initState).fallbackRuns ≤ 1 ∧
    ((process_file PFFFD true [some longText] initState).fallbackRuns = 1 →
      (process_file PFFFD true [some longText] initState).fallbackInput =
        some (extract_text_core [some longText])) ∧
    (process_file PFFFD true [some longText] initState).output.isSome = true :=
  C6_fallback_once PFFFD [some longText] initState (by
    rw [extract_single (evaluate_text_quality_pos (by decide) (by decide)) (by decide)]
    decide)

/-! ## Claim C2 -/

theorem dictInsert_keyPres {m : List (List Char × List Char)} {k v : List Char}
    (h : (k, v) ∈ m) (k₂ v₂ : List Char) : ∃ v', (k, v') ∈ dictInsert m k₂ v₂ := by
  unfold dictInsert
  by_cases hc : m.any (fun kv => kv.1 = k₂) = true
  · rw [if_pos hc]
    by_cases hk : k = k₂
    · refine ⟨v₂, List.mem_map.mpr ⟨(k, v), h, ?_⟩⟩
      simp [hk]
    · refine ⟨v, List.mem_map.mpr ⟨(k, v), h, ?_⟩⟩
      simp [hk]
  · rw [if_neg hc]
    exact ⟨v, List.mem_append_left _ h⟩

theorem foldl_keyPres {α : Type}
    (step : List (List Char × List Char) → α → List (List Char × List Char))
    (hstep : ∀ m a k v, (k, v) ∈ m → ∃ v', (k, v') ∈ step m a) :
    ∀ (l : List α) (m : List (List Char × List Char)) (k v : List Char),
      (k, v) ∈ m → ∃ v', (k, v') ∈ l.foldl step m := by
  intro l
  induction l with
  | nil => exact fun m k v h => ⟨v, h⟩
  | cons a rest ih =>
    intro m k v h
    rcases hstep m a k v h with ⟨v', h'⟩
    exact ih (step m a) k v' h'

theorem analyze_errors_keyPres (ud : List Char → List Char)
    (chard : List Char → Option String) (s : ProcState) (t : List Char)
    {k v : List Char} (h : (k, v) ∈ s.correction_map) :
    ∃ v', (k, v') ∈ (analyze_errors ud chard s t).correction_map := by
  unfold analyze_errors
  refine foldl_keyPres _ ?_ _ _ _ _ h
  intro m a k' v' hm
  rcases hfind : (common_fixes.find? (fun f => f.1 = a.1)).map (fun f => f.2) with _ | fix
  · rw [hfind]
    by_cases hif : ud a.1 ≠ a.1 ∧ ud a.1 ≠ []
    · rw [if_pos hif]
      exact dictInsert_keyPres hm _ _
    · rw [if_neg hif]
      exact ⟨v', hm⟩
  · rw [hfind]
    exact dictInsert_keyPres hm _ _

/-- C2, amended: at the start of `process_file` only
`sanitization_attempted` is reset; in particular every correction-map key
already present on the instance survives the whole call (the analyzer
only adds or overwrites entries, it never clears), so state does leak
between documents unless a fresh instance is used, as `main` does. -/
theorem C2_amended (P : PFParams) (ex : Bool) (cands : List (Option (List Char)))
    (s : ProcState) {k v : List Char} (h : (k, v) ∈ s.correction_map) :
    ∃ v', (k, v') ∈ (process_file P ex cands s).state.correction_map := by
  by_cases hex : ex = true
  · subst hex
    by_cases he : extract_text_core cands = []
    · unfold process_file
      rw [he]
      exact ⟨v, h⟩
    · rw [process_file_eq_core P cands s _ rfl he]
      have base := analyze_errors_keyPres P.ud P.chard
        { { s with sanitization_attempted := false } with
            language := detect_language (extract_text_core cands) }
        (extract_text_core cands) (k := k) (v := v) h
      simp only [process_core]
      split
      · exact base
      · exact base
  · have hex' : ex = false := by
      revert hex
      cases ex <;> simp
    subst hex'
    exact ⟨v, h⟩

/-- Witness for `C2_amended`: a stale entry survives a failed call. -/
theorem C2_amended_witness :
    ∃ v', (['x'], v') ∈
      (process_file PTriv false []
        { initState with correction_map := [(['x'], ['y'])] }).state.correction_map :=
  C2_amended PTriv false [] _ (v := ['y']) (List.mem_singleton.mpr rfl)

/-- First document: Portuguese, containing the mojibake `PîS`, which the
analyzer maps to `Pós`. -/
def doc1 : List Char := "o que de a e PîS ".toList ++ List.replicate 90 'o'

/-- Second document: English by the word-frequency vote, also containing
`PîS`; its own analysis adds no map entry for it. -/
def doc2 : List Char := "the and of to in PîS the the ".toList ++ List.replicate 80 't'

set_option maxRecDepth 10000 in
/-- C2, counterexample: after processing `doc1`, the processor's
correction map is not reset; running `doc2` on the same instance applies
the first document's `PîS → Pós` entry, so the produced artifact differs
from the artifact a fresh instance produces for the same `doc2`. -/
theorem C2_counterexample :
    (process_file PTriv true [some doc1, none] initState).state.correction_map ≠ [] ∧
    (process_file PTriv true [some doc2, none]
        (process_file PTriv true [some doc1, none] initState).state).output ≠
      (process_file PTriv true [some doc2, none] initState).output := by
  have h1 : extract_text_core [some doc1, none] = doc1 :=
    extract_pair_first (evaluate_text_quality_pos (by decide) (by decide)) (by decide)
  have h2 : extract_text_core [some doc2, none] = doc2 :=
    extract_pair_first (evaluate_text_quality_pos (by decide) (by decide)) (by decide)
  rw [process_file_eq_core PTriv _ initState doc1 h1 (by decide),
    process_file_eq_core PTriv _ _ doc2 h2 (by decide),
    process_file_eq_core PTriv _ initState doc2 h2 (by decide)]
  exact ⟨by decide, by decide⟩

/-! ## Claim C1: idempotence analysis of `auto_correct`

The non-Portuguese, empty-map corrector is
`rehyphen ∘ collapseWs ∘ dehyph`.  Its idempotence rests on:
de-hyphenation only fires across a newline and whitespace collapse
removes every newline; collapse output is whitespace-normal (all
whitespace is `' '`, never two adjacent) and hyphen reattachment
preserves whitespace-normality while being idempotent itself. -/

theorem sp_not_w {c : Char} (h : isPySpace c = true) : isW c = false := by
  unfold isPySpace at h
  rw [List.contains_eq_any_beq] at h
  simp only [List.any_eq_true, beq_iff_eq] at h
  rcases h with ⟨x, hx, rfl⟩
  fin_cases hx <;> decide

theorem w_not_sp {c : Char} (h : isW c = true) : isPySpace c = false := by
  by_cases hs : isPySpace c = true
  · rw [sp_not_w hs] at h
    exact absurd h (by decide)
  · simpa using hs

/-! Equation-shape lemmas for the scanners. -/

theorem rehyphenGo_skip : ∀ (n : ℕ) (l : List Char),
    rehyphenGo n l = rehyphenGo 0 (l.drop n) := by
  intro n l
  induction l generalizing n with
  | nil => cases n <;> rfl
  | cons c rest ih =>
    cases n with
    | zero => rfl
    | succ m =>
      show rehyphenGo m rest = _
      rw [ih m, List.drop_succ_cons]

theorem rehyphenGo_cons_not_w {c : Char} (rest : List Char) (h : isW c = false) :
    rehyphenGo 0 (c :: rest) = c :: rehyphenGo 0 rest := by
  simp only [rehyphenGo]
  rw [h]
  simp

theorem rehyphenGo_cons_none {c : Char} {rest : List Char} (hw : isW c = true)
    (hs : hyphenSplit rest = none) :
    rehyphenGo 0 (c :: rest) = c :: rehyphenGo 0 rest := by
  simp only [rehyphenGo]
  rw [hw, hs]
  simp

theorem rehyphenGo_cons_some {c d : Char} {n : ℕ} {rest : List Char} (hw : isW c = true)
    (hs : hyphenSplit rest = some (d, n)) :
    rehyphenGo 0 (c :: rest) = c :: '-' :: d :: rehyphenGo 0 (rest.drop n) := by
  simp only [rehyphenGo]
  rw [hw, hs]
  simp [rehyphenGo_skip]

theorem dropWhile_append_all {p : Char → Bool} {s : List Char} (r : List Char)
    (h : ∀ c ∈ s, p c = true) : (s ++ r).dropWhile p = r.dropWhile p := by
  induction s with
  | nil => rfl
  | cons c rest ih =>
    rw [List.cons_append, List.dropWhile_cons, if_pos (h c (List.mem_cons_self _ _))]
    exact ih fun d hd => h d (List.mem_cons_of_mem _ hd)

/-! Inversion and computation lemmas for `hyphenSplit`. -/

theorem hyphenSplit_inv {l : List Char} {d : Char} {n : ℕ}
    (h : hyphenSplit l = some (d, n)) :
    ∃ t r, l.dropWhile isPySpace = '-' :: t ∧ t.dropWhile isPySpace = d :: r ∧
      isW d = true ∧ l.drop n = r := by
  simp only [hyphenSplit] at h
  rw [drop_takeWhile_length] at h
  split at h
  next t heq =>
    rw [drop_takeWhile_length] at h
    split at h
    next y r heq2 =>
      split at h
      next hy =>
        obtain ⟨hyd, hn⟩ := Prod.mk.injEq _ _ _ _ ▸ Option.some.inj h
        subst hyd
        refine ⟨t, r, heq, heq2, hy, ?_⟩
        have e0 : l.takeWhile isPySpace ++ ('-' :: t) = l := by
          rw [← heq]
          exact List.takeWhile_append_dropWhile _ _
        set w := List.takeWhile isPySpace l
        set m := (List.takeWhile isPySpace t).length
        have e2 : t.drop m = y :: r := by
          rw [drop_takeWhile_length, heq2]
        rw [← hn, ← e0, show w.length + 1 + m + 1 = w.length + (m + 1 + 1) from by omega,
          List.drop_append, List.drop_succ_cons, ← List.drop_drop, e2, List.drop_one,
          List.tail_cons]
      next => exact Option.noConfusion h
    next => exact Option.noConfusion h
  next => exact Option.noConfusion h

theorem hyphenSplit_none_inv {l : List Char} (h : hyphenSplit l = none) :
    (l.dropWhile isPySpace = []) ∨
    (∃ x t, l.dropWhile isPySpace = x :: t ∧ x ≠ '-') ∨
    (∃ t, l.dropWhile isPySpace = '-' :: t ∧ t.dropWhile isPySpace = []) ∨
    (∃ t y r, l.dropWhile isPySpace = '-' :: t ∧ t.dropWhile isPySpace = y :: r ∧
      isW y = false) := by
  simp only [hyphenSplit] at h
  rw [drop_takeWhile_length] at h
  split at h
  next t heq =>
    rw [drop_takeWhile_length] at h
    split at h
    next y r heq2 =>
      split at h
      next => exact Option.noConfusion h
      next hy =>
        exact Or.inr (Or.inr (Or.inr ⟨t, y, r, heq, heq2, by simpa using hy⟩))
    next heq2 => exact Or.inr (Or.inr (Or.inl ⟨t, heq, heq2⟩))
  next _x hne =>
    rcases hd : l.dropWhile isPySpace with _ | ⟨z, t⟩
    · exact Or.inl (by simp [hd])
    · exact Or.inr (Or.inl ⟨z, t, by simp [hd], fun hz => hne t (hz ▸ hd)⟩)

theorem hyphenSplit_none_of_dropWhile_nil {l : List Char}
    (h : l.dropWhile isPySpace = []) : hyphenSplit l = none := by
  rcases hs : hyphenSplit l with _ | ⟨d, n⟩
  · rfl
  · obtain ⟨t', r, e1, _, _, _⟩ := hyphenSplit_inv hs
    rw [h] at e1
    exact List.noConfusion e1

theorem hyphenSplit_none_of_head_ne {l t : List Char} {x : Char}
    (h : l.dropWhile isPySpace = x :: t) (hx : x ≠ '-') : hyphenSplit l = none := by
  rcases hs : hyphenSplit l with _ | ⟨d, n⟩
  · rfl
  · obtain ⟨t', r, e1, _, _, _⟩ := hyphenSplit_inv hs
    rw [h] at e1
    exact absurd (List.cons.injEq _ _ _ _ ▸ e1).1 hx

theorem hyphenSplit_none_of_inner_nil {l t : List Char}
    (h1 : l.dropWhile isPySpace = '-' :: t) (h2 : t.dropWhile isPySpace = []) :
    hyphenSplit l = none := by
  rcases hs : hyphenSplit l with _ | ⟨d, n⟩
  · rfl
  · obtain ⟨t', r, e1, e2, _, _⟩ := hyphenSplit_inv hs
    rw [h1] at e1
    obtain rfl : t = t' := (List.cons.injEq _ _ _ _ ▸ e1).2
    rw [h2] at e2
    exact List.noConfusion e2

theorem hyphenSplit_none_of_inner_not_w {l t r : List Char} {y : Char}
    (h1 : l.dropWhile isPySpace = '-' :: t) (h2 : t.dropWhile isPySpace = y :: r)
    (hy : isW y = false) : hyphenSplit l = none := by
  rcases hs : hyphenSplit l with _ | ⟨d, n⟩
  · rfl
  · obtain ⟨t', r', e1, e2, hw, _⟩ := hyphenSplit_inv hs
    rw [h1] at e1
    obtain rfl : t = t' := (List.cons.injEq _ _ _ _ ▸ e1).2
    rw [h2] at e2
    obtain rfl : y = d := (List.cons.injEq _ _ _ _ ▸ e2).1
    rw [hw] at hy
    exact Bool.noConfusion hy

/-! Shape lemmas for `rehyphen`. -/

theorem rehyphen_head_shape (x : Char) (t : List Char) :
    ∃ ts, rehyphenGo 0 (x :: t) = x :: ts := by
  by_cases hw : isW x = true
  · rcases hs : hyphenSplit t with _ | ⟨d, n⟩
    · exact ⟨_, rehyphenGo_cons_none hw hs⟩
    · exact ⟨_, rehyphenGo_cons_some hw hs⟩
  · exact ⟨_, rehyphenGo_cons_not_w t (by simpa using hw)⟩

theorem rehyphen_spaces_append {s : List Char} (l : List Char)
    (h : ∀ c ∈ s, isPySpace c = true) :
    rehyphenGo 0 (s ++ l) = s ++ rehyphenGo 0 l := by
  induction s with
  | nil => rfl
  | cons c rest ih =>
    rw [List.cons_append, rehyphenGo_cons_not_w _ (sp_not_w (h c (List.mem_cons_self _ _))),
      ih fun d hd => h d (List.mem_cons_of_mem _ hd), List.cons_append]

theorem rehyphen_all_space {t : List Char} (h : ∀ c ∈ t, isPySpace c = true) :
    rehyphenGo 0 t = t := by
  have h0 : rehyphenGo 0 ([] : List Char) = [] := rfl
  have := rehyphen_spaces_append (s := t) [] h
  simpa [h0] using this

/-- If no hyphen-reattachment match starts at the current position, none
starts there in the rewritten output either. -/
theorem hyphenSplit_rehyphen_none {l : List Char} (h : hyphenSplit l = none) :
    hyphenSplit (rehyphenGo 0 l) = none := by
  have hdec : l.takeWhile isPySpace ++ l.dropWhile isPySpace = l :=
    List.takeWhile_append_dropWhile _ _
  have hwall : ∀ c ∈ l.takeWhile isPySpace, isPySpace c = true :=
    fun c hc => List.mem_takeWhile_imp hc
  have hr : rehyphenGo 0 l =
      l.takeWhile isPySpace ++ rehyphenGo 0 (l.dropWhile isPySpace) := by
    conv_lhs => rw [← hdec]
    exact rehyphen_spaces_append _ hwall
  rcases hyphenSplit_none_inv h with h1 | ⟨x, t, h1, hx⟩ | ⟨t, h1, h2⟩ | ⟨t, y, r, h1, h2, hy⟩
  · rw [hr, h1]
    apply hyphenSplit_none_of_dropWhile_nil
    show (l.takeWhile isPySpace ++ rehyphenGo 0 []).dropWhile isPySpace = []
    rw [show rehyphenGo 0 [] = ([] : List Char) from rfl, List.append_nil]
    exact List.dropWhile_eq_nil_iff.mpr hwall
  · have hxs : isPySpace x = false := dropWhile_head_neg h1
    rcases rehyphen_head_shape x t with ⟨ts, hshape⟩
    rw [hr, h1, hshape]
    refine hyphenSplit_none_of_head_ne (t := ts) ?_ hx
    rw [dropWhile_append_all _ hwall, List.dropWhile_cons, if_neg (by simp [hxs])]
  · have h2' : ∀ c ∈ t, isPySpace c = true := List.dropWhile_eq_nil_iff.mp h2
    rw [hr, h1, rehyphenGo_cons_not_w t (by decide), rehyphen_all_space h2']
    refine hyphenSplit_none_of_inner_nil (t := t) ?_ h2
    rw [dropWhile_append_all _ hwall, List.dropWhile_cons, if_neg (by decide)]
  · have hys : isPySpace y = false := dropWhile_head_neg h2
    have htall : ∀ c ∈ t.takeWhile isPySpace, isPySpace c = true :=
      fun c hc => List.mem_takeWhile_imp hc
    have ht : rehyphenGo 0 t = t.takeWhile isPySpace ++ rehyphenGo 0 (y :: r) := by
      conv_lhs => rw [← List.takeWhile_append_dropWhile isPySpace t]
      rw [rehyphen_spaces_append _ htall, h2]
    rcases rehyphen_head_shape y r with ⟨ts, hshape⟩
    rw [hr, h1, rehyphenGo_cons_not_w t (by decide), ht, hshape]
    refine hyphenSplit_none_of_inner_not_w
      (t := t.takeWhile isPySpace ++ y :: ts) (r := ts) ?_ ?_ hy
    · rw [dropWhile_append_all _ hwall, List.dropWhile_cons, if_neg (by decide)]
    · rw [dropWhile_append_all _ htall, List.dropWhile_cons, if_neg (by simp [hys])]

theorem mem_of_mem_dropWhile {p : Char → Bool} {l : List Char} {c : Char}
    (h : c ∈ l.dropWhile p) : c ∈ l := by
  rw [← List.takeWhile_append_dropWhile p l]
  exact List.mem_append_right _ h

/-- The substitution `rehyphen` is idempotent: a second pass of the hyphen-reattachment
substitution finds nothing new to rewrite. -/
theorem rehyphen_idem : ∀ l : List Char, rehyphenGo 0 (rehyphenGo 0 l) = rehyphenGo 0 l
  | [] => rfl
  | c :: rest => by
    by_cases hw : isW c = true
    · rcases hs : hyphenSplit rest with _ | ⟨d, n⟩
      · rw [rehyphenGo_cons_none hw hs,
          rehyphenGo_cons_none hw (hyphenSplit_rehyphen_none hs),
          rehyphen_idem rest]
      · obtain ⟨t', r, _, _, hwd, _⟩ := hyphenSplit_inv hs
        have hds : isPySpace d = false := w_not_sp hwd
        have hsplit2 : hyphenSplit ('-' :: d :: rehyphenGo 0 (rest.drop n)) = some (d, 2) := by
          simp [hyphenSplit, List.takeWhile_cons, hds, hwd,
            show isPySpace '-' = false from by decide]
        rw [rehyphenGo_cons_some hw hs, rehyphenGo_cons_some hw hsplit2,
          show ('-' :: d :: rehyphenGo 0 (rest.drop n)).drop 2 = rehyphenGo 0 (rest.drop n)
            from rfl,
          rehyphen_idem (rest.drop n)]
    · have hw' : isW c = false := by simpa using hw
      rw [rehyphenGo_cons_not_w rest hw', rehyphenGo_cons_not_w _ hw',
        rehyphen_idem rest]
  termination_by l => l.length
  decreasing_by
  · simp
  · simp [List.length_drop]
    omega
  · simp

/-! Whitespace-normality: every whitespace character is `' '` and no two
adjacent characters are both whitespace. -/

def noAdjSp : List Char → Prop
  | [] => True
  | x :: l =>
    (∀ y, l.head? = some y → ¬(isPySpace x = true ∧ isPySpace y = true)) ∧ noAdjSp l

theorem noAdjSp_tail {x : Char} {l : List Char} (h : noAdjSp (x :: l)) : noAdjSp l := h.2

theorem noAdjSp_drop : ∀ (n : ℕ) (l : List Char), noAdjSp l → noAdjSp (l.drop n)
  | 0, _, h => h
  | _ + 1, [], _ => trivial
  | n + 1, _ :: rest, h => by
    rw [List.drop_succ_cons]
    exact noAdjSp_drop n rest (noAdjSp_tail h)

theorem head?_rehyphen (l : List Char) : (rehyphenGo 0 l).head? = l.head? := by
  cases l with
  | nil => rfl
  | cons x t =>
    rcases rehyphen_head_shape x t with ⟨ts, hshape⟩
    rw [hshape]
    rfl

theorem mem_rehyphen : ∀ (l : List Char) (c : Char), c ∈ rehyphenGo 0 l → c ∈ l ∨ c = '-'
  | [], c, hc => absurd hc (List.not_mem_nil c)
  | x :: rest, c, hc => by
    by_cases hw : isW x = true
    · rcases hs : hyphenSplit rest with _ | ⟨d, n⟩
      · rw [rehyphenGo_cons_none hw hs] at hc
        rcases List.mem_cons.mp hc with rfl | hc'
        · exact Or.inl (List.mem_cons_self _ _)
        · rcases mem_rehyphen rest c hc' with h | h
          · exact Or.inl (List.mem_cons_of_mem _ h)
          · exact Or.inr h
      · rw [rehyphenGo_cons_some hw hs] at hc
        obtain ⟨t', r, e1, e2, _, _⟩ := hyphenSplit_inv hs
        rcases List.mem_cons.mp hc with rfl | hc'
        · exact Or.inl (List.mem_cons_self _ _)
        rcases List.mem_cons.mp hc' with rfl | hc''
        · exact Or.inr rfl
        rcases List.mem_cons.mp hc'' with rfl | hc'''
        · have hd1 : c ∈ t'.dropWhile isPySpace := by
            rw [e2]
            exact List.mem_cons_self _ _
          have hd2 : c ∈ ('-' :: t' : List Char) :=
            List.mem_cons_of_mem _ (mem_of_mem_dropWhile hd1)
          have hd3 : c ∈ rest := mem_of_mem_dropWhile (e1 ▸ hd2)
          exact Or.inl (List.mem_cons_of_mem _ hd3)
        · rcases mem_rehyphen (rest.drop n) c hc''' with h | h
          · exact Or.inl (List.mem_cons_of_mem _ (List.mem_of_mem_drop h))
          · exact Or.inr h
    · rw [rehyphenGo_cons_not_w rest (by simpa using hw)] at hc
      rcases List.mem_cons.mp hc with rfl | hc'
      · exact Or.inl (List.mem_cons_self _ _)
      · rcases mem_rehyphen rest c hc' with h | h
        · exact Or.inl (List.mem_cons_of_mem _ h)
        · exact Or.inr h
  termination_by l => l.length
  decreasing_by
  · simp
  · simp [List.length_drop]
    omega
  · simp

theorem noAdjSp_rehyphen : ∀ l : List Char, noAdjSp l → noAdjSp (rehyphenGo 0 l)
  | [], _ => trivial
  | c :: rest, h => by
    by_cases hw : isW c = true
    · rcases hs : hyphenSplit rest with _ | ⟨d, n⟩
      · rw [rehyphenGo_cons_none hw hs]
        exact ⟨fun y hy => h.1 y (head?_rehyphen rest ▸ hy),
          noAdjSp_rehyphen rest (noAdjSp_tail h)⟩
      · rw [rehyphenGo_cons_some hw hs]
        obtain ⟨t', r, _, _, hwd, _⟩ := hyphenSplit_inv hs
        have hcs : isPySpace c = false := w_not_sp hw
        have hds : isPySpace d = false := w_not_sp hwd
        refine ⟨fun y _ hp => by rw [hcs] at hp; exact Bool.noConfusion hp.1,
          fun y _ hp => by
            have : isPySpace '-' = false := by decide
            rw [this] at hp
            exact Bool.noConfusion hp.1,
          fun y _ hp => by rw [hds] at hp; exact Bool.noConfusion hp.1,
          noAdjSp_rehyphen (rest.drop n) (noAdjSp_drop n rest (noAdjSp_tail h))⟩
    · rw [rehyphenGo_cons_not_w rest (by simpa using hw)]
      exact ⟨fun y hy => h.1 y (head?_rehyphen rest ▸ hy),
        noAdjSp_rehyphen rest (noAdjSp_tail h)⟩
  termination_by l => l.length
  decreasing_by
  · simp
  · simp [List.length_drop]
    omega
  · simp

/-! The `collapseWs` output is whitespace-normal, and whitespace-normal input
is a fixed point. -/

theorem collapseWsGo_cons_sp_true {c : Char} {rest : List Char} (hc : isPySpace c = true) :
    collapseWsGo true (c :: rest) = collapseWsGo true rest := by
  simp only [collapseWsGo]
  rw [if_pos hc]
  simp

theorem collapseWsGo_cons_sp_false {c : Char} {rest : List Char} (hc : isPySpace c = true) :
    collapseWsGo false (c :: rest) = ' ' :: collapseWsGo true rest := by
  simp only [collapseWsGo]
  rw [if_pos hc]
  simp

theorem collapseWsGo_cons_not_sp (b : Bool) {c : Char} {rest : List Char}
    (hc : isPySpace c = false) :
    collapseWsGo b (c :: rest) = c :: collapseWsGo false rest := by
  simp only [collapseWsGo]
  rw [if_neg (by simp [hc])]

theorem head_collapseWsGo_true : ∀ (l : List Char) (x : Char),
    (collapseWsGo true l).head? = some x → isPySpace x = false
  | [], _, h => Option.noConfusion h
  | c :: rest, x, h => by
    by_cases hc : isPySpace c = true
    · rw [collapseWsGo_cons_sp_true hc] at h
      exact head_collapseWsGo_true rest x h
    · rw [collapseWsGo_cons_not_sp _ (by simpa using hc)] at h
      cases Option.some.inj h
      simpa using hc

theorem noAdjSp_collapseWsGo : ∀ (b : Bool) (l : List Char), noAdjSp (collapseWsGo b l)
  | _, [] => trivial
  | b, c :: rest => by
    by_cases hc : isPySpace c = true
    · cases b with
      | true =>
        rw [collapseWsGo_cons_sp_true hc]
        exact noAdjSp_collapseWsGo true rest
      | false =>
        rw [collapseWsGo_cons_sp_false hc]
        refine ⟨fun y hy hp => ?_, noAdjSp_collapseWsGo true rest⟩
        rw [head_collapseWsGo_true rest y hy] at hp
        exact Bool.noConfusion hp.2
    · rw [collapseWsGo_cons_not_sp _ (by simpa using hc)]
      refine ⟨fun y _ hp => ?_, noAdjSp_collapseWsGo false rest⟩
      rw [show isPySpace c = false from by simpa using hc] at hp
      exact Bool.noConfusion hp.1
  termination_by _ l => l.length

theorem collapseWsGo_fix : ∀ (l : List Char) (b : Bool),
    (∀ c ∈ l, isPySpace c = true → c = ' ') → noAdjSp l →
    (b = true → ∀ x, l.head? = some x → isPySpace x = false) →
    collapseWsGo b l = l
  | [], _, _, _, _ => rfl
  | c :: rest, b, hall, hadj, hhead => by
    by_cases hc : isPySpace c = true
    · cases b with
      | true => exact absurd hc (by simp [hhead rfl c rfl])
      | false =>
        rw [collapseWsGo_cons_sp_false hc, hall c (List.mem_cons_self _ _) hc]
        congr 1
        cases rest with
        | nil => rfl
        | cons d r =>
          have hd : isPySpace d = false := by
            by_cases hdd : isPySpace d = true
            · exact absurd ⟨hc, hdd⟩ (hadj.1 d rfl)
            · simpa using hdd
          exact collapseWsGo_fix (d :: r) true
            (fun e he hse => hall e (List.mem_cons_of_mem _ he) hse)
            (noAdjSp_tail hadj)
            (fun _ x hx => by
              cases Option.some.inj hx
              exact hd)
    · rw [collapseWsGo_cons_not_sp _ (by simpa using hc)]
      rw [collapseWsGo_fix rest false
        (fun e he hse => hall e (List.mem_cons_of_mem _ he) hse)
        (noAdjSp_tail hadj)
        (fun hfalse => Bool.noConfusion hfalse)]
  termination_by l => l.length

/-! The scanner `dehyph` is the identity on newline-free text. -/

theorem contains_nl_mem {ws : List Char} (h : ws.contains '\n' = true) : '\n' ∈ ws := by
  rw [List.contains_eq_any_beq] at h
  simp only [List.any_eq_true, beq_iff_eq] at h
  rcases h with ⟨x, hx, rfl⟩
  exact hx

theorem mem_of_mem_takeWhile {p : Char → Bool} {l : List Char} {c : Char}
    (h : c ∈ l.takeWhile p) : c ∈ l := by
  rw [← List.takeWhile_append_dropWhile p l]
  exact List.mem_append_left _ h

theorem dehyphScan_no_nl {c : Char} {rest : List Char} (h : '\n' ∉ rest) :
    dehyphScan c rest = (false, c :: rest.takeWhile isW, (rest.takeWhile isW).length) := by
  simp only [dehyphScan]
  split
  next rest2 heq =>
    rw [if_neg ?nonl]
    case nonl =>
      intro hcont
      have h1 : '\n' ∈ rest2 := mem_of_mem_takeWhile (contains_nl_mem hcont)
      have h2 : '\n' ∈ rest.drop (rest.takeWhile isW).length := by
        rw [heq]
        exact List.mem_cons_of_mem _ h1
      exact h (List.mem_of_mem_drop h2)
  next => rfl

theorem dehyphGo_skip : ∀ (n : ℕ) (pw : Bool) (l : List Char),
    dehyphGo n pw l = dehyphGo 0 pw (l.drop n) := by
  intro n pw l
  induction l generalizing n with
  | nil => cases n <;> rfl
  | cons c rest ih =>
    cases n with
    | zero => rfl
    | succ m =>
      show dehyphGo m pw rest = _
      rw [ih m, List.drop_succ_cons]

theorem dehyphGo_cons_w {pw : Bool} {c : Char} {rest out : List Char} {m : Bool} {n : ℕ}
    (hw : (isW c && !pw) = true) (hscan : dehyphScan c rest = (m, out, n)) :
    dehyphGo 0 pw (c :: rest) = out ++ dehyphGo n true rest := by
  simp only [dehyphGo]
  rw [hw, hscan]
  simp

theorem dehyphGo_cons_else {pw : Bool} {c : Char} {rest : List Char}
    (hw : (isW c && !pw) = false) :
    dehyphGo 0 pw (c :: rest) = c :: dehyphGo 0 (isW c) rest := by
  simp only [dehyphGo]
  rw [hw]
  simp

theorem dehyphGo_no_nl : ∀ (l : List Char) (pw : Bool), '\n' ∉ l → dehyphGo 0 pw l = l
  | [], _, _ => rfl
  | c :: rest, pw, h => by
    have hrest : '\n' ∉ rest := fun hm => h (List.mem_cons_of_mem _ hm)
    by_cases hw : (isW c && !pw) = true
    · rw [dehyphGo_cons_w hw (dehyphScan_no_nl hrest), dehyphGo_skip,
        dehyphGo_no_nl (rest.drop (rest.takeWhile isW).length) true
          (fun hm => hrest (List.mem_of_mem_drop hm)),
        drop_takeWhile_length]
      rw [List.cons_append, List.takeWhile_append_dropWhile]
    · rw [dehyphGo_cons_else (by simpa using hw),
        dehyphGo_no_nl rest (isW c) hrest]
  termination_by l => l.length
  decreasing_by
  · simp [List.length_drop]
    omega
  · simp

/-- The non-Portuguese regex chain of `auto_correct`
(`rehyphen ∘ collapseWs ∘ dehyph`) is idempotent on every input: the
collapse pass removes every newline so de-hyphenation finds nothing on a
second pass, collapse output is whitespace-normal and both
hyphen reattachment and a further collapse leave it unchanged. -/
theorem regex_chain_idem (u : List Char) :
    rehyphen (collapseWs (dehyph (rehyphen (collapseWs (dehyph u))))) =
      rehyphen (collapseWs (dehyph u)) := by
  have hnl_cw : '\n' ∉ collapseWs (dehyph u) := no_nl_collapseWs _
  have hnl_y : '\n' ∉ rehyphen (collapseWs (dehyph u)) := by
    intro hmem
    rcases mem_rehyphen _ _ hmem with h | h
    · exact hnl_cw h
    · exact absurd h (by decide)
  have h1 : dehyph (rehyphen (collapseWs (dehyph u))) = rehyphen (collapseWs (dehyph u)) :=
    dehyphGo_no_nl _ false hnl_y
  have hblank : ∀ c ∈ rehyphen (collapseWs (dehyph u)), isPySpace c = true → c = ' ' := by
    intro c hc hsp
    rcases mem_rehyphen _ _ hc with h | h
    · rcases mem_collapseWsGo h with h' | ⟨_, hs⟩
      · exact h'
      · rw [hs] at hsp
        exact Bool.noConfusion hsp
    · rw [h] at hsp
      exact absurd hsp (by decide)
  have hadj : noAdjSp (rehyphen (collapseWs (dehyph u))) :=
    noAdjSp_rehyphen _ (noAdjSp_collapseWsGo false _)
  have h2 : collapseWs (rehyphen (collapseWs (dehyph u))) = rehyphen (collapseWs (dehyph u)) :=
    collapseWsGo_fix _ false hblank hadj (fun hf => Bool.noConfusion hf)
  have h3 : rehyphen (rehyphen (collapseWs (dehyph u))) = rehyphen (collapseWs (dehyph u)) :=
    rehyphen_idem (collapseWs (dehyph u))
  rw [h1, h2, h3]

/-- C1, amended: for every input text and every processor state whose
detected language is not Portuguese, if applying the correction map's
substitutions once more to the corrector's own output changes nothing
(the specification's stated premise: fixed substrings no longer match),
then `auto_correct (auto_correct text) = auto_correct text`.  The
correction map may be arbitrary — in particular empty, in which case the
fixpoint hypothesis holds trivially.  The claim as originally stated
fails both with Portuguese detected (article-header rule) and, for
states with a stale map entry, without it (de-hyphenation can reassemble
a mapped substring); see the counterexample. -/
theorem C1_amended (s : ProcState) (t : List Char)
    (hl : ¬ s.language = "portuguese")
    (hfix : s.correction_map.foldl (fun acc kv => pyReplace kv.1 kv.2 acc)
      (auto_correct s t) = auto_correct s t) :
    auto_correct s (auto_correct s t) = auto_correct s t := by
  have expand : ∀ v, auto_correct s v =
      rehyphen (collapseWs (dehyph
        (s.correction_map.foldl (fun acc kv => pyReplace kv.1 kv.2 acc) v))) := by
    intro v
    unfold auto_correct
    rw [if_neg hl]
  rw [expand (auto_correct s t), hfix, expand t]
  exact regex_chain_idem _

/-- An English document containing the `â€` mojibake, establishing a
reachable non-Portuguese state with a non-empty correction map
(`â€ → "` via the fixed table). -/
def enDocQuote : List Char := "the and of to in â€ the the ".toList ++ List.replicate 80 't'

/-- The processor state reached after `analyze_errors` on `enDocQuote`
(identity transliteration oracle, null chardet result), mirroring
`process_core`: the language is set from `detect_language` on the
canonical extraction before the analysis runs. -/
def quoteState : ProcState :=
  analyze_errors PTriv.ud PTriv.chard
    { initState with language := detect_language enDocQuote } enDocQuote

set_option maxRecDepth 10000 in
/-- Witness for `C1_amended` at a reachable English state whose
correction map is non-empty: the fixpoint hypothesis holds because the
replaced mojibake cannot be reassembled, and the second pass is a
no-op. -/
theorem C1_amended_witness :
    auto_correct quoteState (auto_correct quoteState enDocQuote) =
      auto_correct quoteState enDocQuote :=
  C1_amended quoteState enDocQuote (by decide) (by decide)

/-- The Portuguese counterexample text, fed through the pipeline's own
reachable-state construction: `process_file` sets the language from
`detect_language` on the canonical extraction and then runs
`analyze_errors` on it (here with an identity transliteration oracle and
a null chardet result). -/
def ptText : List Char := "o que de a e Art. 1".toList

/-- The processor state reached after `analyze_errors` on `ptText`. -/
def ptState : ProcState :=
  analyze_errors (fun u => u) (fun _ => none)
    { initState with language := detect_language ptText } ptText

/-- An English second document containing a hyphenated line-break split
of the mojibake `PîS` (`Pî-\nS`). -/
def staleEnDoc : List Char :=
  "the and of to in Pî-\nS the the ".toList ++ List.replicate 80 't'

/-- The state `process_file` hands to `auto_correct` when `staleEnDoc`
is processed on the instance that already processed `doc1` (whose
analysis left `PîS → Pós` in the correction map): the second call resets
only `sanitization_attempted`, sets the language from `detect_language`
on the new canonical extraction, and runs `analyze_errors` on it. -/
def staleState : ProcState :=
  analyze_errors PTriv.ud PTriv.chard
    { (process_file PTriv true [some doc1, none] initState).state with
        sanitization_attempted := false,
        language := detect_language staleEnDoc } staleEnDoc

set_option maxRecDepth 10000 in
/-- C1, counterexample, exhibiting both failure modes of the claim.
First, in the reachable Portuguese state a second application of
`auto_correct` is not a no-op: the article-header rule
`Art\.\s*(\d+)[º°]?  →  **Art. \1**` matches its own output again, so
`**Art. 1**` becomes `****Art. 1****`.  Second, even with detected
language English the claim fails at a reachable state with a non-empty
correction map: replacements run before de-hyphenation, so in
`staleEnDoc` the split `Pî-\nS` survives the first replacement pass, is
joined to `PîS` by the de-hyphenation rule, and the stale `PîS → Pós`
entry fires only on the second application. -/
theorem C1_counterexample :
    (auto_correct ptState (auto_correct ptState ptText) ≠ auto_correct ptState ptText) ∧
    (staleState.language = "english" ∧ staleState.correction_map ≠ [] ∧
      auto_correct staleState (auto_correct staleState staleEnDoc) ≠
        auto_correct staleState staleEnDoc) := by
  have h1 : extract_text_core [some doc1, none] = doc1 :=
    extract_pair_first (evaluate_text_quality_pos (by decide) (by decide)) (by decide)
  have hs : staleState =
      analyze_errors PTriv.ud PTriv.chard
        { (process_core PTriv { initState with sanitization_attempted := false } doc1).state with
            sanitization_attempted := false,
            language := detect_language staleEnDoc } staleEnDoc := by
    unfold staleState
    rw [process_file_eq_core PTriv _ initState doc1 h1 (by decide)]
  refine ⟨by decide, ?_, ?_, ?_⟩ <;> rw [hs] <;> decide

end Extrair
